import Mathlib

/-!
Verification development for the ferromic repository (src/dnds.py and
src/pairwise_matrix_test.py).

The Python sources are shallowly embedded: pure fragments become Lean
functions, floating-point NaN is modelled by `Option` (`none` = NaN),
Python `int`/`float` data by `Int`/`Rat`, Python exceptions by `Except`,
and calls into external collaborators (scipy's `combine_pvalues`, the
CODEML binary, the statsmodels mixed-model fit) by explicit function
parameters, since those are outside the repository.
-/

namespace Ferromic

/-! ## Python string primitives

Lean core's `String` functions (`splitOn`, `replace`, `endsWith`, ...) are
compiled externs whose Lean definitions do not reduce inside the kernel,
so the Python string operations used by the sources are re-implemented
here by structural recursion over the underlying character lists.  Python
compares and iterates strings by Unicode code point, exactly as `List
Char` does. -/

/-- Characters removed by Python's `str.strip()` (the ASCII whitespace
set; exotic Unicode whitespace does not occur in sample names). -/
def isPySpace (c : Char) : Bool :=
  c == ' ' || c == '\t' || c == '\n' || c == '\r' || c == Char.ofNat 11 || c == Char.ofNat 12

/-- Python `str.strip()`. -/
def pyStrip (s : String) : String :=
  String.mk (((s.data.dropWhile isPySpace).reverse.dropWhile isPySpace).reverse)

/-- Python `sep in s` for a single character. -/
def pyContainsChar (s : String) (c : Char) : Bool := s.data.contains c

/-- Python `s.startswith(pre)`. -/
def pyStartsWith (s pre : String) : Bool := pre.data.isPrefixOf s.data

/-- Python `s.endswith(post)`. -/
def pyEndsWith (s post : String) : Bool := post.data.isSuffixOf s.data

/-- Splitting a character list on a single separator character, keeping
empty fragments, as Python `s.split(sep)` does for a one-character
separator. -/
def splitCharList (sep : Char) : List Char → List (List Char)
  | [] => [[]]
  | c :: cs =>
    if c = sep then [] :: splitCharList sep cs
    else
      match splitCharList sep cs with
      | [] => [[c]]
      | p :: ps => (c :: p) :: ps

/-- Python `s.split(sep)` for a one-character separator. -/
def pySplitChar (s : String) (sep : Char) : List String :=
  (splitCharList sep s.data).map String.mk

/-- Fuelled splitter on a multi-character separator: Python `str.split`
scans left to right taking non-overlapping separator occurrences.  The
fuel is the input length, enough for every step. -/
def splitSeqF (sep : List Char) : ℕ → List Char → List (List Char)
  | 0, _ => [[]]
  | _ + 1, [] => [[]]
  | f + 1, c :: cs =>
    if sep.isPrefixOf (c :: cs) then
      [] :: splitSeqF sep f (List.drop (sep.length - 1) cs)
    else
      match splitSeqF sep f cs with
      | [] => [[c]]
      | p :: ps => (c :: p) :: ps

/-- Python `s.split(sep)` for a nonempty separator string. -/
def pySplitSeq (s sep : String) : List String :=
  (splitSeqF sep.data s.data.length s.data).map String.mk

/-- Python `s.replace(c, repl)` for a one-character pattern. -/
def pyReplaceChar (s : String) (c : Char) (repl : String) : String :=
  String.mk (s.data.flatMap (fun x => if x = c then repl.data else [x]))

/-- Fuelled remover of every non-overlapping occurrence of a pattern,
scanning left to right: Python `s.replace(pat, '')`. -/
def removeSeqF (pat : List Char) : ℕ → List Char → List Char
  | 0, s => s
  | _ + 1, [] => []
  | f + 1, c :: cs =>
    if pat.isPrefixOf (c :: cs) then removeSeqF pat f (List.drop (pat.length - 1) cs)
    else c :: removeSeqF pat f cs

/-- Python `s.replace(pat, '')` for a nonempty pattern string. -/
def pyRemoveSeq (s pat : String) : String :=
  String.mk (removeSeqF pat.data s.data.length s.data)

/-- Digit run of a Python integer literal after its first digit: digits
with single underscores allowed between digits, accumulating the value. -/
def pyDigitsAux : ℕ → List Char → Option ℕ
  | acc, [] => some acc
  | acc, '_' :: c :: cs =>
    if c.isDigit then pyDigitsAux (acc * 10 + (c.toNat - 48)) cs else none
  | _, ['_'] => none
  | acc, c :: cs =>
    if c.isDigit then pyDigitsAux (acc * 10 + (c.toNat - 48)) cs else none

/-- Python `int(s)`: surrounding whitespace stripped, an optional sign,
then at least one ASCII digit, with single underscores permitted between
digits.  (Python additionally accepts non-ASCII decimal digits, which do
not occur in region names.) -/
def pyToInt? (s : String) : Option ℤ :=
  match ((s.data.dropWhile isPySpace).reverse.dropWhile isPySpace).reverse with
  | '-' :: c :: cs =>
    if c.isDigit then (pyDigitsAux (c.toNat - 48) cs).map (fun n => -(n : ℤ)) else none
  | '+' :: c :: cs =>
    if c.isDigit then (pyDigitsAux (c.toNat - 48) cs).map (fun n => (n : ℤ)) else none
  | c :: cs =>
    if c.isDigit then (pyDigitsAux (c.toNat - 48) cs).map (fun n => (n : ℤ)) else none
  | [] => none

/-! ## Models of src/dnds.py -/

/-- Model of `get_safe_process_count` (src/dnds.py lines 261-274).
`total_cpus // 4` capped at 8 and floored at 1; memory-based count is
`int(mem.available / (4*1024*1024*1024))` floored at 1 (the float division
by the power of two 2^32 is exact for all machine-sized byte counts, so it
coincides with natural-number division); the result is the minimum of the
two. -/
def get_safe_process_count (totalCpus memAvailable : ℕ) : ℕ :=
  let safe_cpu_count := max 1 (min (totalCpus / 4) 8)
  let mem_based_count := max 1 (memAvailable / (4 * 1024 * 1024 * 1024))
  min safe_cpu_count mem_based_count

/-- Worker-pool size as the specification states it (spec section 4.4):
`max(1, min(available_cores/2, available_memory / 2GiB))`.  This definition
follows the spec's words and is compared against `get_safe_process_count`,
which is translated from the source. -/
def specPoolSize (totalCpus memAvailable : ℕ) : ℕ :=
  max 1 (min (totalCpus / 2) (memAvailable / (2 * 1024 * 1024 * 1024)))

/-- Model of one row of the pairwise-results produced by `process_pair`
(src/dnds.py lines 280-360): the 8-tuple
`(seq1, seq2, group1, group2, dN, dS, omega, cds_id)`.  Groups are
`Option ℤ` because `extract_group_from_sample` can return `None`;
`dN`, `dS`, `omega` are `Option ℚ` with `none` standing for Python's
`None`/`np.nan`. -/
structure PairResult where
  seq1 : String
  seq2 : String
  group1 : Option ℤ
  group2 : Option ℤ
  dN : Option ℚ
  dS : Option ℚ
  omega : Option ℚ
  cds : String
deriving DecidableEq

/-- Outcome of `process_pair`: the returned tuple (or Python `None`), plus
a flag recording whether the external CODEML tool was invoked for this pair
(control file written and `run_codeml` called). -/
structure PairOutcome where
  result : Option PairResult
  codemlInvoked : Bool
deriving DecidableEq

/-- Model of `process_pair` (src/dnds.py lines 280-360).  `groups` models
the `sample_groups` dict, `seqs` the `sequences` dict (callers only pass
names present in it), `codemlSuccess` the boolean returned by
`run_codeml`, and `parsed` the `(dN, dS, omega)` triple returned by
`parse_codeml_output` — both externals are parameters.  `pyStrip`
models Python's `.strip()`.  Control flow: cross-group pairs return
`None`; byte-identical sequences return the sentinel tuple without
invoking CODEML; otherwise CODEML runs and its outcome is recorded. -/
def process_pair (groups : String → Option ℤ) (seqs : String → String)
    (cdsId : String) (codemlSuccess : Bool)
    (parsed : Option ℚ × Option ℚ × Option ℚ) (s1 s2 : String) : PairOutcome :=
  if groups s1 ≠ groups s2 then
    ⟨none, false⟩
  else if seqs s1 = seqs s2 then
    ⟨some ⟨pyStrip s1, pyStrip s2, groups s1, groups s1, some 0, some 0, some (-1), cdsId⟩, false⟩
  else if codemlSuccess then
    ⟨some ⟨pyStrip s1, pyStrip s2, groups s1, groups s1, parsed.1, parsed.2.1, parsed.2.2, cdsId⟩,
      true⟩
  else
    ⟨some ⟨pyStrip s1, pyStrip s2, groups s1, groups s1, none, none, none, cdsId⟩, true⟩

/-- Model of `itertools.combinations(l, 2)`: all unordered pairs, each
taken once, in the source order. -/
def pairsOf {α : Type} : List α → List (α × α)
  | [] => []
  | x :: xs => (xs.map (fun y => (x, y))) ++ pairsOf xs

/-- Names assigned to group 0 (src/dnds.py line 414): the items of the
`sample_groups` dict whose group is `0`, in insertion order. -/
def group0Names (samples : List (String × Option ℤ)) : List String :=
  (samples.filter (fun p => decide (p.2 = some 0))).map Prod.fst

/-- Names assigned to group 1 (src/dnds.py line 415). -/
def group1Names (samples : List (String × Option ℤ)) : List String :=
  (samples.filter (fun p => decide (p.2 = some 1))).map Prod.fst

/-- Model of the pair generation of `process_phy_file` (src/dnds.py lines
421-423): `combinations(group0_names, 2) + combinations(group1_names, 2)`. -/
def withinGroupPairs (samples : List (String × Option ℤ)) : List (String × String) :=
  pairsOf (group0Names samples) ++ pairsOf (group1Names samples)

/-! Per-haplotype statistics of `process_phy_file` (src/dnds.py lines
484-514).  The pairwise-results DataFrame is a list of `PairResult` rows;
for a sample, the rows touching it are selected, their omega column is
taken, entries equal to `-1` or `99` are removed (pandas `isin` is false
on NaN, so NaN rows are KEPT by `~isin([-1, 99])`), and mean/median are
computed by pandas with `skipna`, i.e. over the non-NaN remainder. -/

/-- Rows of the results DataFrame in which the sample appears as `Seq1` or
`Seq2` (src/dnds.py line 487). -/
def sample_df (rows : List PairResult) (s : String) : List PairResult :=
  rows.filter (fun r => decide (r.seq1 = s ∨ r.seq2 = s))

/-- Omega column of the sample's rows after `~isin([-1, 99])`
(src/dnds.py line 492).  `none` (NaN) entries survive this filter. -/
def omegaKept (rows : List PairResult) (s : String) : List (Option ℚ) :=
  ((sample_df rows s).map (fun r => r.omega)).filter
    (fun o => decide (¬ (o = some (-1) ∨ o = some 99)))

/-- Model of `pandas.Series.mean` with default `skipna`: the mean of the
non-NaN entries, NaN if there are none. -/
def pandasMean (l : List (Option ℚ)) : Option ℚ :=
  let v := l.filterMap id
  if v = [] then none else some (v.sum / (v.length : ℚ))

/-- Model of `pandas.Series.median` with default `skipna`: sort the
non-NaN entries; take the middle element, or the average of the two middle
elements; NaN if there are none. -/
def pandasMedian (l : List (Option ℚ)) : Option ℚ :=
  let v := (l.filterMap id).insertionSort (· ≤ ·)
  if v = [] then none
  else if v.length % 2 = 1 then some (v.getD (v.length / 2) 0)
  else some ((v.getD (v.length / 2 - 1) 0 + v.getD (v.length / 2) 0) / 2)

/-- `Mean_dNdS` of a sample (src/dnds.py lines 495-499): NaN when no
omega values survive the sentinel filter, otherwise the pandas mean. -/
def mean_dNdS (rows : List PairResult) (s : String) : Option ℚ :=
  let kept := omegaKept rows s
  if kept = [] then none else pandasMean kept

/-- `Median_dNdS` of a sample (src/dnds.py lines 495-501). -/
def median_dNdS (rows : List PairResult) (s : String) : Option ℚ :=
  let kept := omegaKept rows s
  if kept = [] then none else pandasMedian kept

/-- `Num_Comparisons` of a sample (src/dnds.py line 508): the length of
the omega column after removing `-1` and `99` — NaN entries included. -/
def num_comparisons (rows : List PairResult) (s : String) : ℕ :=
  (omegaKept rows s).length

/-- Omega values of a sample with `-1`, `99` and NaN all excluded, as the
specification describes the mean/median inputs (spec section 4.5). -/
def specCleanOmegas (rows : List PairResult) (s : String) : List ℚ :=
  (((sample_df rows s).map (fun r => r.omega)).filterMap id).filter
    (fun q => decide (q ≠ -1 ∧ q ≠ 99))

/-- Mean of a plain list of rationals, `none` when empty. -/
def listMeanQ (v : List ℚ) : Option ℚ :=
  if v = [] then none else some (v.sum / (v.length : ℚ))

/-- Median of a plain list of rationals, `none` when empty. -/
def listMedianQ (l : List ℚ) : Option ℚ :=
  let v := l.insertionSort (· ≤ ·)
  if v = [] then none
  else if v.length % 2 = 1 then some (v.getD (v.length / 2) 0)
  else some ((v.getD (v.length / 2 - 1) 0 + v.getD (v.length / 2) 0) / 2)

/-! ## Models of src/pairwise_matrix_test.py -/

/-- Model of `get_cache_path` (src/pairwise_matrix_test.py lines 37-39):
the per-CDS cache file name `cds.replace('/', '_') + ".pkl"` (the constant
cache directory is irrelevant to key identity and omitted). -/
def cachePath (cds : String) : String := String.mk ((pyReplaceChar cds '/' "_").data ++ ".pkl".data)

/-- The on-disk cache, modelled as an association list from file path to
the pickled value (pickle serialisation is assumed faithful; a corrupt
file is modelled as an absent entry). -/
abbrev CacheStore (α : Type) := List (String × α)

/-- Model of `save_cached_result` (src/pairwise_matrix_test.py lines
53-57): writing the pickle file overwrites any previous file at the same
path. -/
def save_cached_result {α : Type} (store : CacheStore α) (cds : String) (r : α) :
    CacheStore α :=
  (cachePath cds, r) :: store.filter (fun p => decide (p.1 ≠ cachePath cds))

/-- Model of `load_cached_result` (src/pairwise_matrix_test.py lines
41-51): look the path up in the store. -/
def load_cached_result {α : Type} (store : CacheStore α) (cds : String) : Option α :=
  store.lookup (cachePath cds)

/-- Result dictionary built by `analyze_cds_parallel`
(src/pairwise_matrix_test.py lines 849-873).  The `matrix_0`/`matrix_1`
entries are visualisation-only arrays untouched by every claim and are
omitted from the model. -/
structure CdsResult where
  observed_effect_size : Option ℚ
  p_value : Option ℚ
  std_err : Option ℚ
  n0 : ℕ
  n1 : ℕ
  num_comp_group_0 : ℕ
  num_comp_group_1 : ℕ
  pairwise_comparisons : Finset (String × String)
deriving DecidableEq

/-- Statistics returned by `analysis_worker` (src/pairwise_matrix_test.py
lines 160-260); the mixed-model fit inside it uses statsmodels and is
treated as an external collaborator, so the worker is a parameter of
`analyze_cds_parallel`. -/
structure WorkerOut where
  observed_effect_size : Option ℚ
  p_value : Option ℚ
  std_err : Option ℚ
  num_comp_group_0 : ℕ
  num_comp_group_1 : ℕ
deriving DecidableEq

/-- Number of unique sequence ids of the region not ending in `'1'`
(src/pairwise_matrix_test.py lines 835-836), from the rows
`(Seq1, Seq2, omega)` of the region's slice of the DataFrame. -/
def n0Of (rows : List (String × String × Option ℚ)) : ℕ :=
  (((rows.map (fun r => r.1)) ++ rows.map (fun r => r.2.1)).dedup.filter
    (fun s => !(pyEndsWith s "1"))).length

/-- Number of unique sequence ids of the region ending in `'1'`
(src/pairwise_matrix_test.py line 837). -/
def n1Of (rows : List (String × String × Option ℚ)) : ℕ :=
  (((rows.map (fun r => r.1)) ++ rows.map (fun r => r.2.1)).dedup.filter
    (fun s => pyEndsWith s "1")).length

/-- Keys of the region's `pairwise_dict` (src/pairwise_matrix_test.py
lines 831-832, 853): the set of `(Seq1, Seq2)` pairs of its rows. -/
def pairKeysOf (rows : List (String × String × Option ℚ)) : Finset (String × String) :=
  (rows.map (fun r => (r.1, r.2.1))).toFinset

/-- Model of the non-cached path of `analyze_cds_parallel`
(src/pairwise_matrix_test.py lines 830-877): group counts are computed, a
base result with the pairwise-comparison key set is built, the
minimum-10-sequences-per-group gate decides between the NaN result and a
worker invocation, and the result is saved to the cache.  The returned
4-tuple is `(cds, result, updated store, worker invoked?)`. -/
def analyze_cds_fresh (worker : List (String × String × Option ℚ) → WorkerOut)
    (store : CacheStore CdsResult) (rows : List (String × String × Option ℚ))
    (cds : String) : String × CdsResult × CacheStore CdsResult × Bool :=
  let n0 := n0Of rows
  let n1 := n1Of rows
  if n0 < 10 ∨ n1 < 10 then
    let res : CdsResult := ⟨none, none, none, n0, n1, 0, 0, pairKeysOf rows⟩
    (cds, res, save_cached_result store cds res, false)
  else
    let w := worker rows
    let res : CdsResult :=
      ⟨w.observed_effect_size, w.p_value, w.std_err, n0, n1,
        w.num_comp_group_0, w.num_comp_group_1, pairKeysOf rows⟩
    (cds, res, save_cached_result store cds res, true)

/-- Model of `analyze_cds_parallel` (src/pairwise_matrix_test.py lines
821-877): an existing cached result is returned as is, without running
the analysis; otherwise the fresh path runs. -/
def analyze_cds_parallel (worker : List (String × String × Option ℚ) → WorkerOut)
    (store : CacheStore CdsResult) (rows : List (String × String × Option ℚ))
    (cds : String) : String × CdsResult × CacheStore CdsResult × Bool :=
  match load_cached_result store cds with
  | some r => (cds, r, store, false)
  | none => analyze_cds_fresh worker store rows cds

/-- Model of `parse_cds_coordinates` (src/pairwise_matrix_test.py lines
880-904).  The path prefix is stripped first; an underscore-format name
must split into exactly `chrom`, `startN`, `endN`; otherwise a
colon-format `chrom:start-end` name is tried (`elif`, so only when no
underscore is present).  A failed `int()` anywhere yields `none`, like
the source's `except` returning `(None, None, None)`. -/
def parse_cds_coordinates (cdsName : String) : Option (String × Int × Int) :=
  let name := if pyContainsChar cdsName '/' then (pySplitChar cdsName '/').getLastD cdsName
              else cdsName
  if pyContainsChar name '_' then
    match pySplitChar name '_' with
    | [c, p1, p2] =>
      if pyStartsWith p1 "start" && pyStartsWith p2 "end" then
        match pyToInt? (pyRemoveSeq p1 "start"), pyToInt? (pyRemoveSeq p2 "end") with
        | some s, some e => some (c, s, e)
        | _, _ => none
      else none
    | _ => none
  else if pyContainsChar name ':' then
    match pySplitChar name ':' with
    | [c, coords] =>
      match pySplitSeq (pyReplaceChar coords '-' "..") ".." with
      | [a, b] =>
        match pyToInt? a, pyToInt? b with
        | some s, some e => some (c, s, e)
        | _, _ => none
      | _ => none
    | _ => none
  else none

/-- Parsed region tuple `(chrom, start, end, cds)` as appended to
`cds_coords` in `build_overlap_clusters` (src/pairwise_matrix_test.py
lines 917-920); `stop` models Python's `end`. -/
structure CdsCoord where
  chrom : String
  start : Int
  stop : Int
  cds : String
deriving DecidableEq

/-- Parsing a CDS name into a coordinate tuple, keeping the original name
(src/pairwise_matrix_test.py lines 917-920). -/
def parseRegion (name : String) : Option CdsCoord :=
  (parse_cds_coordinates name).map (fun t => ⟨t.1, t.2.1, t.2.2, name⟩)

/-- Sort key of `cds_coords.sort()`: Python sorts the tuples
`(chrom, start, end, cds)` lexicographically, comparing strings by code
point — the lexicographic order of their character lists. -/
def coordKey (r : CdsCoord) : (List Char) ×ₗ (Int ×ₗ (Int ×ₗ List Char)) :=
  toLex (r.chrom.data, toLex (r.start, toLex (r.stop, r.cds.data)))

/-- Comparison relation used to model the Python list sort. -/
def keyLe (a b : CdsCoord) : Prop := coordKey a ≤ coordKey b

instance : DecidableRel keyLe := fun a b =>
  inferInstanceAs (Decidable (coordKey a ≤ coordKey b))

instance : IsTotal CdsCoord keyLe := ⟨fun a b => le_total (coordKey a) (coordKey b)⟩

instance : IsTrans CdsCoord keyLe := ⟨fun _ _ _ h h' => le_trans h h'⟩

/-- Sorting `cds_coords` (src/pairwise_matrix_test.py line 931). -/
def sortCoords (l : List CdsCoord) : List CdsCoord := l.insertionSort keyLe

/-- State of the cluster-building loop (src/pairwise_matrix_test.py lines
910-934): the `clusters` dict (cluster id to member-CDS set), the next
fresh cluster id, and the `active_regions` list of
`(chrom, end, cluster_id)` entries. -/
structure ClustState where
  clusters : List (ℕ × Finset String)
  nextId : ℕ
  active : List (String × ℤ × ℕ)

/-- Pruning of `active_regions` on entering a region (src/pairwise_matrix_test.py
lines 937-939): keep entries of another chromosome or with `end >= start`. -/
def pruneActive (chrom : String) (start : ℤ) (acts : List (String × ℤ × ℕ)) :
    List (String × ℤ × ℕ) :=
  acts.filter (fun t => decide (t.1 ≠ chrom ∨ start ≤ t.2.1))

/-- Cluster ids of pruned active entries on the current chromosome with
`end >= start` (src/pairwise_matrix_test.py lines 941-943). -/
def overlapIdsOf (chrom : String) (start : ℤ) (acts : List (String × ℤ × ℕ)) :
    List ℕ :=
  (acts.filter (fun t => decide (t.1 = chrom ∧ start ≤ t.2.1))).map (fun t => t.2.2)

/-- Minimum of a nonempty list given as head and tail, modelling Python's
`min(overlapping_clusters)`. -/
def listMin (c : ℕ) (cs : List ℕ) : ℕ := cs.foldl min c

/-- Member set of the merged target cluster: the union of every cluster
whose id is among the overlapping ids, together with the current CDS
(src/pairwise_matrix_test.py lines 953-961). -/
def mergedMembers (ids : List ℕ) (cs : List (ℕ × Finset String)) (newCds : String) :
    Finset String :=
  cs.foldr (fun p acc => if p.1 ∈ ids then p.2 ∪ acc else acc) {newCds}

/-- One iteration of the cluster-building loop over a sorted region
(src/pairwise_matrix_test.py lines 936-967). -/
def stepRegion (st : ClustState) (r : CdsCoord) : ClustState :=
  match overlapIdsOf r.chrom r.start (pruneActive r.chrom r.start st.active) with
  | [] =>
    { clusters := (st.nextId, {r.cds}) :: st.clusters
      nextId := st.nextId + 1
      active := pruneActive r.chrom r.start st.active ++ [(r.chrom, r.stop, st.nextId)] }
  | c :: cs =>
    { clusters := (listMin c cs, mergedMembers (c :: cs) st.clusters r.cds)
        :: st.clusters.filter (fun p => decide (p.1 ∉ (c :: cs : List ℕ)))
      nextId := st.nextId
      active := ((pruneActive r.chrom r.start st.active).map
          (fun t => if t.2.2 ∈ (c :: cs : List ℕ) then (t.1, t.2.1, listMin c cs) else t))
        ++ [(r.chrom, r.stop, listMin c cs)] }

/-- Model of `build_overlap_clusters` over already-parsed coordinates
(src/pairwise_matrix_test.py lines 906-969): sort by the tuple order,
then run the sweep loop from the empty state; the `clusters` dict is the
output. -/
def buildOverlapClusters (l : List CdsCoord) : List (ℕ × Finset String) :=
  ((sortCoords l).foldl stepRegion ⟨[], 0, []⟩).clusters

/-- Model of `build_overlap_clusters` from the CDS-name column: names
whose coordinates do not parse are dropped (src/pairwise_matrix_test.py
lines 916-920). -/
def buildOverlapClustersFromNames (names : List String) : List (ℕ × Finset String) :=
  buildOverlapClusters (names.filterMap parseRegion)

/-- Chromosome-and-interval overlap relation of the specification
(spec section 4.6): same chromosome and nonempty intersection of the
closed coordinate intervals. -/
def overlapRel (a b : CdsCoord) : Prop :=
  a.chrom = b.chrom ∧ max a.start b.start ≤ min a.stop b.stop

/-- One overlap step between members of the region list `P`. -/
def stepRel (P : List CdsCoord) (x y : CdsCoord) : Prop :=
  x ∈ P ∧ y ∈ P ∧ overlapRel x y

/-- Connectivity by a chain of same-chromosome interval overlaps within
the region list `P`. -/
def ConnectedIn (P : List CdsCoord) (a b : CdsCoord) : Prop :=
  Relation.ReflTransGen (stepRel P) a b

/-- Loop invariant of the sweep in `build_overlap_clusters`, relating the
state to the processed prefix `done`: the clusters dict has distinct live
keys below `nextId` and partitions the processed regions into the
connected components of the overlap relation, and every active entry
points to the current cluster of one processed region, every processed
region either having a live active entry or being separated from all
later regions by an already-processed same-chromosome region starting
after its end. -/
structure Inv (done : List CdsCoord) (st : ClustState) : Prop where
  keysNodup : (st.clusters.map Prod.fst).Nodup
  keysLt : ∀ p ∈ st.clusters, p.1 < st.nextId
  nonempty : ∀ p ∈ st.clusters, p.2.Nonempty
  cover : ∀ x : String, (∃ p ∈ st.clusters, x ∈ p.2) ↔ x ∈ done.map CdsCoord.cds
  comp : ∀ p ∈ st.clusters, ∀ q ∈ st.clusters, ∀ a ∈ done, ∀ b ∈ done,
    a.cds ∈ p.2 → b.cds ∈ q.2 → (p.1 = q.1 ↔ ConnectedIn done a b)
  activeSound : ∀ t ∈ st.active, ∃ r ∈ done, r.chrom = t.1 ∧ r.stop = t.2.1 ∧
    ∃ p ∈ st.clusters, p.1 = t.2.2 ∧ r.cds ∈ p.2
  activeComplete : ∀ r ∈ done, (∃ t ∈ st.active, t.1 = r.chrom ∧ t.2.1 = r.stop ∧
      ∃ p ∈ st.clusters, p.1 = t.2.2 ∧ r.cds ∈ p.2) ∨
    (∃ s ∈ done, s.chrom = r.chrom ∧ r.stop < s.start)

/-- Row of the per-CDS results available to `combine_cluster_evidence`
(src/pairwise_matrix_test.py lines 971-1051): the `results_df` row
(`CDS`, `observed_effect_size`, `p_value`) bundled with the region's
`pairwise_comparisons` key set from the `results` dict.  `none` models
NaN; `±inf` p-values (filtered by the source alongside NaN) have no
rational representative and are subsumed by `none`. -/
structure ClusterRow where
  cds : String
  observed_effect_size : Option ℚ
  p_value : Option ℚ
  pairwise_comparisons : Finset (String × String)
deriving DecidableEq

/-- Return record of `combine_cluster_evidence`
(src/pairwise_matrix_test.py lines 1045-1051). -/
structure ClusterEvidence where
  combined_pvalue : Option ℚ
  weighted_effect_size : Option ℚ
  n_comparisons : ℕ
  n_valid_cds : ℕ
  cluster_pairs : Finset (String × String)
deriving DecidableEq

/-- Length weights of a cluster's parseable members
(src/pairwise_matrix_test.py lines 976-983): `end - start` per CDS whose
coordinates parse. -/
def clusterWeights (cluster : List String) : List (String × ℤ) :=
  cluster.filterMap (fun c => (parse_cds_coordinates c).map (fun t => (c, t.2.2 - t.2.1)))

/-- Normalised weight of one CDS (src/pairwise_matrix_test.py lines
986-987 and 1004): its parsed length over the cluster's total length,
with the equal-share fallback `1 / len(cluster_cdss)` for members whose
coordinates did not parse. -/
def clusterWeightFn (cluster : List String) : String → ℚ := fun c =>
  let wlist := clusterWeights cluster
  let total : ℤ := (wlist.map Prod.snd).sum
  match wlist.lookup c with
  | some len => (len : ℚ) / (total : ℚ)
  | none => 1 / (cluster.length : ℚ)

/-- Rows of `results_df` whose CDS belongs to the cluster
(src/pairwise_matrix_test.py line 973). -/
def clusterDataOf (cluster : List String) (rows : List ClusterRow) : List ClusterRow :=
  rows.filter (fun row => decide (row.cds ∈ cluster))

/-- Cluster rows the combination loop does not skip: those with a
non-NaN effect size (src/pairwise_matrix_test.py lines 997-1012). -/
def validRowsOf (cluster : List String) (rows : List ClusterRow) : List ClusterRow :=
  (clusterDataOf cluster rows).filter (fun row => decide (row.observed_effect_size ≠ none))

/-- The `cluster_pairs` set accumulated by the loop: the union of the
pairwise-comparison key sets of the non-skipped rows
(src/pairwise_matrix_test.py lines 995-1009). -/
def clusterPairsOf (cluster : List String) (rows : List ClusterRow) : Finset (String × String) :=
  ((validRowsOf cluster rows).map (fun row => row.pairwise_comparisons)).foldr (· ∪ ·) ∅

/-- The `weighted_effect_size` accumulated by the loop
(src/pairwise_matrix_test.py lines 990-1005): the sum of effect size
times weight over the non-skipped rows. -/
def weightedEffectOf (cluster : List String) (rows : List ClusterRow) : ℚ :=
  ((validRowsOf cluster rows).map
    (fun row => (row.observed_effect_size.getD 0) * clusterWeightFn cluster row.cds)).sum

/-- The `valid_pvals` array (src/pairwise_matrix_test.py lines
1019-1023): p-values of the non-skipped rows with NaN entries removed. -/
def validPvalsOf (cluster : List String) (rows : List ClusterRow) : List ℚ :=
  ((validRowsOf cluster rows).map (fun row => row.p_value)).filterMap id

/-- The `valid_weights` array normalised to sum 1
(src/pairwise_matrix_test.py lines 1027-1034); the weights of all
non-skipped rows, not only those whose p-value survived the NaN filter,
exactly as in the source. -/
def normWeightsOf (cluster : List String) (rows : List ClusterRow) : List ℚ :=
  ((validRowsOf cluster rows).map (fun row => clusterWeightFn cluster row.cds)).map
    (· / ((validRowsOf cluster rows).map (fun row => clusterWeightFn cluster row.cds)).sum)

/-- Model of `combine_cluster_evidence` (src/pairwise_matrix_test.py
lines 971-1051).  `stouffer` is scipy's
`combine_pvalues(..., method='stouffer', weights=...)` p-value, an
external collaborator taken as a parameter.  `cluster` is the member-CDS
set (Python iterates a `set`; callers pass duplicate-free lists) and
`rows` the full `results_df` joined with each region's pair set.  The
weight normalisation `weights[cds] /= total_length` raises
`ZeroDivisionError` when the weights dict is nonempty and the summed
length is zero; this is the `Except.error` case. -/
def combine_cluster_evidence (stouffer : List ℚ → List ℚ → ℚ)
    (cluster : List String) (rows : List ClusterRow) : Except Unit ClusterEvidence :=
  if clusterWeights cluster ≠ [] ∧ ((clusterWeights cluster).map Prod.snd).sum = 0 then
    Except.error ()
  else if (validRowsOf cluster rows).length > 0 then
    if validPvalsOf cluster rows ≠ [] then
      Except.ok ⟨some (stouffer (validPvalsOf cluster rows) (normWeightsOf cluster rows)),
        some (weightedEffectOf cluster rows), (clusterPairsOf cluster rows).card,
        (validRowsOf cluster rows).length, clusterPairsOf cluster rows⟩
    else
      Except.ok ⟨none, some (weightedEffectOf cluster rows), (clusterPairsOf cluster rows).card,
        (validRowsOf cluster rows).length, clusterPairsOf cluster rows⟩
  else
    Except.ok ⟨none, none, 0, 0, clusterPairsOf cluster rows⟩

/-- Return record of `compute_overall_significance`
(src/pairwise_matrix_test.py lines 1119-1126).  `none` models NaN. -/
structure OverallSignificance where
  overall_pvalue : Option ℚ
  overall_pvalue_fisher : Option ℚ
  overall_pvalue_stouffer : Option ℚ
  overall_effect : Option ℚ
  n_valid_clusters : ℕ
  total_comparisons : ℕ
deriving DecidableEq

/-- The `valid_clusters` filter (src/pairwise_matrix_test.py lines
1064-1068): cluster records whose combined p-value and weighted effect
size are both defined (non-NaN). -/
def validClustersOf (results : List ClusterEvidence) : List ClusterEvidence :=
  results.filter (fun c => decide (c.combined_pvalue ≠ none ∧ c.weighted_effect_size ≠ none))

/-- The `cluster_pvals` array (src/pairwise_matrix_test.py line 1071):
the valid clusters' combined p-values (all defined by the filter; the
`getD` default is never reached). -/
def clusterPvalsOf (results : List ClusterEvidence) : List ℚ :=
  (validClustersOf results).map (fun c => c.combined_pvalue.getD 0)

/-- The Stouffer `weights` array after the zero/NaN check
(src/pairwise_matrix_test.py lines 1081-1086): the valid clusters'
comparison counts as reals, replaced by `None` when they are all zero.
The counts are natural numbers, so the source's `np.isnan(weights).any()`
disjunct is never true. -/
def overallWeightsOf (results : List ClusterEvidence) : Option (List ℚ) :=
  if ((validClustersOf results).map (fun c => (c.n_comparisons : ℚ))).all
      (fun w => decide (w = 0)) then none
  else some ((validClustersOf results).map (fun c => (c.n_comparisons : ℚ)))

/-- The `normalized_weights` array (src/pairwise_matrix_test.py lines
1096-1099): the weights scaled by their sum, or the equal-share vector
`np.ones_like(effect_sizes) / len(effect_sizes)` when the weights were
dropped. -/
def overallNormWeightsOf (results : List ClusterEvidence) : List ℚ :=
  match overallWeightsOf results with
  | some ws => ws.map (· / ws.sum)
  | none => (validClustersOf results).map (fun _ => 1 / ((validClustersOf results).length : ℚ))

/-- `np.average(values, weights=ws)` (src/pairwise_matrix_test.py line
1101): the weighted sum divided by the total weight. -/
def npAverage (values ws : List ℚ) : ℚ :=
  (List.zipWith (· * ·) values ws).sum / ws.sum

/-- The `all_unique_pairs` set (src/pairwise_matrix_test.py lines
1104-1107): the union of the valid clusters' pair sets. -/
def overallPairsOf (results : List ClusterEvidence) : Finset (String × String) :=
  ((validClustersOf results).map (fun c => c.cluster_pairs)).foldr (· ∪ ·) ∅

/-- Model of `compute_overall_significance` (src/pairwise_matrix_test.py
lines 1053-1126).  `fisher` is scipy's `combine_pvalues(..., method='fisher')`
p-value and `stoufferW` is `combine_pvalues(..., method='stouffer', weights=...)`
with its optional weight vector (`none` where the source sets
`weights = None`); both are external collaborators taken as parameters.
`results` is `cluster_results.values()`.  In the valid branch
`overall_pvalue` is set to the Fisher value (line 1110) and both are
returned along with the Stouffer value; in the empty branch every
statistic is NaN and the counts keep their zero initialisation. -/
def compute_overall_significance (fisher : List ℚ → ℚ)
    (stoufferW : List ℚ → Option (List ℚ) → ℚ)
    (results : List ClusterEvidence) : OverallSignificance :=
  if validClustersOf results ≠ [] then
    ⟨some (fisher (clusterPvalsOf results)),
     some (fisher (clusterPvalsOf results)),
     some (stoufferW (clusterPvalsOf results) (overallWeightsOf results)),
     some (npAverage ((validClustersOf results).map (fun c => c.weighted_effect_size.getD 0))
       (overallNormWeightsOf results)),
     (validClustersOf results).length,
     (overallPairsOf results).card⟩
  else
    ⟨none, none, none, none, 0, 0⟩

/-! ## Concrete inputs used by witnesses and counterexamples -/

/-- Sample-to-group assignment with 3 cohort-0 and 3 cohort-1 samples. -/
def samplesC5 : List (String × Option ℤ) :=
  [("a_0", some 0), ("b_0", some 0), ("c_0", some 0),
   ("d_1", some 1), ("e_1", some 1), ("f_1", some 1)]

/-- Pairwise rows for one sample: 2 normal comparisons, 1 identical-pair
sentinel (omega = -1), 1 Failed comparison (omega = NaN). -/
def rowsC3 : List PairResult :=
  [⟨"s_0", "t_0", some 0, some 0, some 0, some 0, some 1, "cds"⟩,
   ⟨"s_0", "u_0", some 0, some 0, some 0, some 0, some 2, "cds"⟩,
   ⟨"s_0", "v_0", some 0, some 0, some 0, some 0, some (-1), "cds"⟩,
   ⟨"s_0", "w_0", some 0, some 0, none, none, none, "cds"⟩]

/-- An arbitrary cached analysis result with a defined effect size. -/
def junkResult : CdsResult := ⟨some 5, some (1 / 100), some 1, 20, 20, 4, 4, ∅⟩

/-- Two-member cluster whose second member has a NaN effect size. -/
def clusterC2 : List String := ["chr1_start0_end10", "chr1_start0_end20"]

/-- Result rows for `clusterC2`: the NaN-effect member carries a pairwise
key the valid member does not. -/
def rowsC2 : List ClusterRow :=
  [⟨"chr1_start0_end10", some 1, some (1 / 2), {("a", "b")}⟩,
   ⟨"chr1_start0_end20", none, some (1 / 2), {("c", "d")}⟩]

/-- Single-member cluster of a zero-length region: its weight list is
nonempty with total length 0. -/
def clusterC9 : List String := ["chr1_start5_end5"]

/-- Result row for `clusterC9`, with no valid effect size. -/
def rowsC9 : List ClusterRow := [⟨"chr1_start5_end5", none, none, ∅⟩]

/-- Single-member cluster with nonzero total length whose row carries no
valid effect size. -/
def clusterC9w : List String := ["chr1_start0_end10"]

/-- Result row for `clusterC9w` with a NaN effect size. -/
def rowsC9w : List ClusterRow := [⟨"chr1_start0_end10", none, some (1 / 2), {("a", "b")}⟩]

/-- Single-member cluster with a well-defined positive total length. -/
def clusterC6 : List String := ["chr1_start0_end10"]

/-- Result row for `clusterC6` with a valid effect size and p-value. -/
def rowsC6 : List ClusterRow := [⟨"chr1_start0_end10", some 1, some (1 / 20), {("a", "b")}⟩]

/-- One-cluster `cluster_results` input whose combined p-value and
weighted effect size are both defined (non-NaN). -/
def resultsC6 : List ClusterEvidence := [⟨some (1 / 10), some 1, 1, 1, {("a", "b")}⟩]

/-- CDS names of the specification's four-region clustering example:
intervals [100,200], [150,300], [500,600], [550,650] on one chromosome. -/
def namesC1 : List String :=
  ["chr1_start100_end200", "chr1_start150_end300",
   "chr1_start500_end600", "chr1_start550_end650"]

/-! ## Helper lemmas -/

theorem pairsOf_length {α : Type} (l : List α) : (pairsOf l).length = l.length.choose 2 := by
  induction l with
  | nil => rfl
  | cons x xs ih =>
    simp only [pairsOf, List.length_append, List.length_map, ih, List.length_cons,
      Nat.choose_succ_succ, Nat.choose_one_right]

theorem mem_pairsOf {α : Type} {l : List α} {p : α × α} (h : p ∈ pairsOf l) :
    p.1 ∈ l ∧ p.2 ∈ l := by
  induction l with
  | nil => simp [pairsOf] at h
  | cons x xs ih =>
    simp only [pairsOf, List.mem_append, List.mem_map] at h
    rcases h with ⟨y, hy, rfl⟩ | h
    · exact ⟨List.mem_cons_self _ _, List.mem_cons_of_mem _ hy⟩
    · exact ⟨List.mem_cons_of_mem _ (ih h).1, List.mem_cons_of_mem _ (ih h).2⟩

theorem assoc_nodup_unique {α β : Type} {l : List (α × β)}
    (h : (l.map Prod.fst).Nodup) {a : α} {b c : β}
    (hb : (a, b) ∈ l) (hc : (a, c) ∈ l) : b = c := by
  induction l with
  | nil => cases hb
  | cons p t ih =>
    simp only [List.map_cons, List.nodup_cons] at h
    rcases List.mem_cons.mp hb with hb1 | hb2
    · rcases List.mem_cons.mp hc with hc1 | hc2
      · rw [← hb1] at hc1
        exact ((Prod.mk.injEq _ _ _ _).mp hc1).2.symm
      · exfalso
        apply h.1
        have hp : p.1 = a := by rw [← hb1]
        rw [hp]
        exact List.mem_map.mpr ⟨(a, c), hc2, rfl⟩
    · rcases List.mem_cons.mp hc with hc1 | hc2
      · exfalso
        apply h.1
        have hp : p.1 = a := by rw [← hc1]
        rw [hp]
        exact List.mem_map.mpr ⟨(a, b), hb2, rfl⟩
      · exact ih h.2 hb2 hc2

theorem mem_group0Names {samples : List (String × Option ℤ)} {a : String}
    (h : a ∈ group0Names samples) : (a, (some 0 : Option ℤ)) ∈ samples := by
  simp only [group0Names, List.mem_map, List.mem_filter] at h
  rcases h with ⟨⟨a', g⟩, ⟨hmem, hg⟩, rfl⟩
  simp only [decide_eq_true_eq] at hg
  subst hg
  exact hmem

theorem mem_group1Names {samples : List (String × Option ℤ)} {a : String}
    (h : a ∈ group1Names samples) : (a, (some 1 : Option ℤ)) ∈ samples := by
  simp only [group1Names, List.mem_map, List.mem_filter] at h
  rcases h with ⟨⟨a', g⟩, ⟨hmem, hg⟩, rfl⟩
  simp only [decide_eq_true_eq] at hg
  subst hg
  exact hmem

theorem filter_sentinel_filterMap (l : List (Option ℚ)) :
    (l.filter (fun o => decide (¬ (o = some (-1) ∨ o = some 99)))).filterMap id =
      (l.filterMap id).filter (fun q => decide (q ≠ -1 ∧ q ≠ 99)) := by
  induction l with
  | nil => rfl
  | cons o t ih =>
    cases o with
    | none => simpa using ih
    | some q =>
      by_cases h1 : q = -1
      · simpa [h1] using ih
      · by_cases h2 : q = 99
        · simpa [h2] using ih
        · simpa [h1, h2] using ih

theorem length_keep_split (l : List (Option ℚ)) :
    (l.filter (fun o => decide (¬ (o = some (-1) ∨ o = some 99)))).length =
      ((l.filterMap id).filter (fun q => decide (q ≠ -1 ∧ q ≠ 99))).length +
      l.countP (fun o => decide (o = none)) := by
  induction l with
  | nil => rfl
  | cons o t ih =>
    cases o with
    | none =>
      simp only [List.countP_cons] at ih ⊢
      simp at ih ⊢
      omega
    | some q =>
      by_cases h1 : q = -1
      · simp [h1, List.countP_cons] at ih ⊢
        omega
      · by_cases h2 : q = 99
        · simp [h2, List.countP_cons] at ih ⊢
          omega
        · simp [h1, h2, List.countP_cons] at ih ⊢
          omega

theorem mem_foldr_union {α : Type} [DecidableEq α] {l : List (Finset α)} {a : α} :
    a ∈ l.foldr (· ∪ ·) ∅ ↔ ∃ t ∈ l, a ∈ t := by
  induction l with
  | nil => simp
  | cons s t ih => simp [ih]

theorem subset_foldr_union {α : Type} [DecidableEq α] {l : List (Finset α)} {t : Finset α}
    (h : t ∈ l) : t ⊆ l.foldr (· ∪ ·) ∅ := by
  intro a ha
  exact mem_foldr_union.mpr ⟨t, h, ha⟩

theorem card_foldr_union_le {α : Type} [DecidableEq α] (l : List (Finset α)) :
    (l.foldr (· ∪ ·) ∅).card ≤ (l.map Finset.card).sum := by
  induction l with
  | nil => simp
  | cons s t ih =>
    simp only [List.foldr_cons, List.map_cons, List.sum_cons]
    exact le_trans (Finset.card_union_le _ _) (Nat.add_le_add_left ih _)

theorem card_foldr_union_eq_iff {α : Type} [DecidableEq α] (l : List (Finset α)) :
    (l.foldr (· ∪ ·) ∅).card = (l.map Finset.card).sum ↔ l.Pairwise Disjoint := by
  induction l with
  | nil => simp
  | cons s t ih =>
    simp only [List.foldr_cons, List.map_cons, List.sum_cons, List.pairwise_cons]
    constructor
    · intro h
      have hle := card_foldr_union_le t
      have hid := Finset.card_union_add_card_inter s (t.foldr (· ∪ ·) ∅)
      have hcap : (s ∩ t.foldr (· ∪ ·) ∅).card = 0 := by omega
      have hrest : (t.foldr (· ∪ ·) ∅).card = (t.map Finset.card).sum := by omega
      have hdisj : Disjoint s (t.foldr (· ∪ ·) ∅) :=
        Finset.disjoint_iff_inter_eq_empty.mpr (Finset.card_eq_zero.mp hcap)
      refine ⟨fun u hu => Finset.disjoint_of_subset_right (subset_foldr_union hu) hdisj, ih.mp hrest⟩
    · rintro ⟨hdis, hpw⟩
      have hdisj : Disjoint s (t.foldr (· ∪ ·) ∅) := by
        rw [Finset.disjoint_left]
        intro a ha hmem
        rcases mem_foldr_union.mp hmem with ⟨u, hu, hau⟩
        exact (Finset.disjoint_left.mp (hdis u hu)) ha hau
      rw [Finset.card_union_of_disjoint hdisj, ih.mpr hpw]

/-! ## Overlap-clustering lemmas (claim C1)

The sweep of `build_overlap_clusters` is verified by an invariant over
the processed prefix: the `clusters` dict is a partition of the processed
regions into the connected components of the overlap relation, and the
`active_regions` list tracks, for every processed region that can still
overlap a later one, its current cluster id. -/

theorem overlapRel_symm {a b : CdsCoord} (h : overlapRel a b) : overlapRel b a := by
  obtain ⟨h1, h2⟩ := h
  refine ⟨h1.symm, ?_⟩
  rw [max_comm, min_comm]
  exact h2

theorem stepRel_symm (P : List CdsCoord) : Symmetric (stepRel P) :=
  fun _ _ h => ⟨h.2.1, h.1, overlapRel_symm h.2.2⟩

theorem ConnectedIn.symm {P : List CdsCoord} {a b : CdsCoord} (h : ConnectedIn P a b) :
    ConnectedIn P b a :=
  Relation.ReflTransGen.symmetric (stepRel_symm P) h

theorem connectedIn_mono {P Q : List CdsCoord} (hPQ : ∀ x, x ∈ P → x ∈ Q) {a b : CdsCoord}
    (h : ConnectedIn P a b) : ConnectedIn Q a b := by
  induction h with
  | refl => exact Relation.ReflTransGen.refl
  | tail _ hstep ih =>
    exact ih.tail ⟨hPQ _ hstep.1, hPQ _ hstep.2.1, hstep.2.2⟩

theorem connectedIn_congr {P Q : List CdsCoord} (hPQ : ∀ x, x ∈ P ↔ x ∈ Q) {a b : CdsCoord} :
    ConnectedIn P a b ↔ ConnectedIn Q a b :=
  ⟨connectedIn_mono (fun x hx => (hPQ x).mp hx), connectedIn_mono (fun x hx => (hPQ x).mpr hx)⟩

/-- Every path in `v :: P` from a vertex of `P` either stays inside `P`
or decomposes at visits of the new vertex `v`. -/
theorem connected_insert_cases {P : List CdsCoord} {v : CdsCoord} (hv : v ∉ P)
    {a : CdsCoord} (ha : a ∈ P) {c : CdsCoord} (h : ConnectedIn (v :: P) a c) :
    (c = v ∧ ∃ x ∈ P, ConnectedIn P a x ∧ overlapRel x v) ∨
      (c ∈ P ∧ (ConnectedIn P a c ∨
        ∃ x ∈ P, ∃ y ∈ P, overlapRel x v ∧ overlapRel y v ∧
          ConnectedIn P a x ∧ ConnectedIn P y c)) := by
  induction h with
  | refl => exact Or.inr ⟨ha, Or.inl Relation.ReflTransGen.refl⟩
  | tail _ hstep ih =>
    obtain ⟨hm, hc, hov⟩ := hstep
    rcases ih with ⟨rfl, x, hxP, hax, hxv⟩ | ⟨hmP, hcase⟩
    · rcases List.mem_cons.mp hc with rfl | hcP
      · exact Or.inl ⟨rfl, x, hxP, hax, hxv⟩
      · exact Or.inr ⟨hcP, Or.inr ⟨x, hxP, _, hcP, hxv, overlapRel_symm hov,
          hax, Relation.ReflTransGen.refl⟩⟩
    · rcases List.mem_cons.mp hc with rfl | hcP
      · rcases hcase with hac | ⟨x, hx, _, _, hxv, _, hax, _⟩
        · exact Or.inl ⟨rfl, _, hmP, hac, hov⟩
        · exact Or.inl ⟨rfl, x, hx, hax, hxv⟩
      · rcases hcase with hac | ⟨x, hx, y, hy, hxv, hyv, hax, hym⟩
        · exact Or.inr ⟨hcP, Or.inl (hac.tail ⟨hmP, hcP, hov⟩)⟩
        · exact Or.inr ⟨hcP, Or.inr ⟨x, hx, y, hy, hxv, hyv, hax, hym.tail ⟨hmP, hcP, hov⟩⟩⟩

theorem connected_insert_iff {P : List CdsCoord} {v : CdsCoord} (hv : v ∉ P)
    {a b : CdsCoord} (ha : a ∈ P) (hb : b ∈ P) :
    ConnectedIn (v :: P) a b ↔
      (ConnectedIn P a b ∨
        ∃ x ∈ P, ∃ y ∈ P, overlapRel x v ∧ overlapRel y v ∧
          ConnectedIn P a x ∧ ConnectedIn P y b) := by
  constructor
  · intro h
    rcases connected_insert_cases hv ha h with ⟨rfl, _⟩ | ⟨_, hcase⟩
    · exact absurd hb hv
    · exact hcase
  · intro h
    rcases h with h | ⟨x, hx, y, hy, hxv, hyv, hax, hyb⟩
    · exact connectedIn_mono (fun z hz => List.mem_cons_of_mem _ hz) h
    · have h1 : ConnectedIn (v :: P) a x :=
        connectedIn_mono (fun z hz => List.mem_cons_of_mem _ hz) hax
      have h2 : ConnectedIn (v :: P) a v :=
        h1.tail ⟨List.mem_cons_of_mem _ hx, List.mem_cons_self _ _, hxv⟩
      have h3 : ConnectedIn (v :: P) a y :=
        h2.tail ⟨List.mem_cons_self _ _, List.mem_cons_of_mem _ hy, overlapRel_symm hyv⟩
      exact h3.trans (connectedIn_mono (fun z hz => List.mem_cons_of_mem _ hz) hyb)

theorem connected_insert_new_iff {P : List CdsCoord} {v : CdsCoord} (hv : v ∉ P)
    {a : CdsCoord} (ha : a ∈ P) :
    ConnectedIn (v :: P) a v ↔ ∃ x ∈ P, ConnectedIn P a x ∧ overlapRel x v := by
  constructor
  · intro h
    rcases connected_insert_cases hv ha h with ⟨_, x, hx, hax, hxv⟩ | ⟨hvP, _⟩
    · exact ⟨x, hx, hax, hxv⟩
    · exact absurd hvP hv
  · rintro ⟨x, hx, hax, hxv⟩
    exact (connectedIn_mono (fun z hz => List.mem_cons_of_mem _ hz) hax).tail
      ⟨List.mem_cons_of_mem _ hx, List.mem_cons_self _ _, hxv⟩

theorem mem_pruneActive {chrom : String} {start : ℤ} {acts : List (String × ℤ × ℕ)}
    {t : String × ℤ × ℕ} :
    t ∈ pruneActive chrom start acts ↔ t ∈ acts ∧ (t.1 ≠ chrom ∨ start ≤ t.2.1) := by
  simp [pruneActive, List.mem_filter]

theorem mem_overlapIdsOf {chrom : String} {start : ℤ} {acts : List (String × ℤ × ℕ)} {cid : ℕ} :
    cid ∈ overlapIdsOf chrom start acts ↔
      ∃ t ∈ acts, (t.1 = chrom ∧ start ≤ t.2.1) ∧ t.2.2 = cid := by
  simp [overlapIdsOf, List.mem_map, List.mem_filter]

theorem mem_mergedMembers {ids : List ℕ} {cs : List (ℕ × Finset String)} {newCds x : String} :
    x ∈ mergedMembers ids cs newCds ↔ x = newCds ∨ ∃ p ∈ cs, p.1 ∈ ids ∧ x ∈ p.2 := by
  unfold mergedMembers
  induction cs with
  | nil => simp
  | cons p t ih =>
    by_cases h : p.1 ∈ ids
    · simp only [List.foldr_cons, if_pos h, Finset.mem_union, ih]
      constructor
      · rintro (hx | hx | ⟨q, hq, hqid, hqx⟩)
        · exact Or.inr ⟨p, List.mem_cons_self _ _, h, hx⟩
        · exact Or.inl hx
        · exact Or.inr ⟨q, List.mem_cons_of_mem _ hq, hqid, hqx⟩
      · rintro (hx | ⟨q, hq, hqid, hqx⟩)
        · exact Or.inr (Or.inl hx)
        · rcases List.mem_cons.mp hq with rfl | hq'
          · exact Or.inl hqx
          · exact Or.inr (Or.inr ⟨q, hq', hqid, hqx⟩)
    · simp only [List.foldr_cons, if_neg h, ih]
      constructor
      · rintro (hx | ⟨q, hq, hqid, hqx⟩)
        · exact Or.inl hx
        · exact Or.inr ⟨q, List.mem_cons_of_mem _ hq, hqid, hqx⟩
      · rintro (hx | ⟨q, hq, hqid, hqx⟩)
        · exact Or.inl hx
        · rcases List.mem_cons.mp hq with rfl | hq'
          · exact absurd hqid h
          · exact Or.inr ⟨q, hq', hqid, hqx⟩

theorem listMin_cons (c x : ℕ) (xs : List ℕ) : listMin c (x :: xs) = listMin (min c x) xs := rfl

theorem listMin_mem (c : ℕ) (cs : List ℕ) : listMin c cs ∈ c :: cs := by
  induction cs generalizing c with
  | nil => exact List.mem_cons_self _ _
  | cons x xs ih =>
    rw [listMin_cons]
    rcases List.mem_cons.mp (ih (min c x)) with h | h
    · rcases min_choice c x with hm | hm
      · rw [h, hm]
        exact List.mem_cons_self _ _
      · rw [h, hm]
        exact List.mem_cons_of_mem _ (List.mem_cons_self _ _)
    · exact List.mem_cons_of_mem _ (List.mem_cons_of_mem _ h)

theorem keys_nodup_eq {cs : List (ℕ × Finset String)} (h : (cs.map Prod.fst).Nodup)
    {p q : ℕ × Finset String} (hp : p ∈ cs) (hq : q ∈ cs) (hk : p.1 = q.1) : p = q := by
  induction cs with
  | nil => cases hp
  | cons u t ih =>
    simp only [List.map_cons, List.nodup_cons] at h
    rcases List.mem_cons.mp hp with rfl | hp'
    · rcases List.mem_cons.mp hq with rfl | hq'
      · rfl
      · exfalso
        apply h.1
        rw [hk]
        exact List.mem_map.mpr ⟨q, hq', rfl⟩
    · rcases List.mem_cons.mp hq with rfl | hq'
      · exfalso
        apply h.1
        rw [← hk]
        exact List.mem_map.mpr ⟨p, hp', rfl⟩
      · exact ih h.2 hp' hq'

theorem stepRegion_nil {st : ClustState} {r : CdsCoord}
    (h : overlapIdsOf r.chrom r.start (pruneActive r.chrom r.start st.active) = []) :
    stepRegion st r =
      { clusters := (st.nextId, {r.cds}) :: st.clusters
        nextId := st.nextId + 1
        active := pruneActive r.chrom r.start st.active ++ [(r.chrom, r.stop, st.nextId)] } := by
  unfold stepRegion
  rw [h]

theorem stepRegion_cons {st : ClustState} {r : CdsCoord} {c : ℕ} {cs : List ℕ}
    (h : overlapIdsOf r.chrom r.start (pruneActive r.chrom r.start st.active) = c :: cs) :
    stepRegion st r =
      { clusters := (listMin c cs, mergedMembers (c :: cs) st.clusters r.cds)
          :: st.clusters.filter (fun p => decide (p.1 ∉ (c :: cs : List ℕ)))
        nextId := st.nextId
        active := ((pruneActive r.chrom r.start st.active).map
            (fun t => if t.2.2 ∈ (c :: cs : List ℕ) then (t.1, t.2.1, listMin c cs) else t))
          ++ [(r.chrom, r.stop, listMin c cs)] } := by
  unfold stepRegion
  rw [h]

theorem Inv.uniqueKey {done : List CdsCoord} {st : ClustState} (hinv : Inv done st) :
    ∀ p ∈ st.clusters, ∀ q ∈ st.clusters, ∀ x, x ∈ p.2 → x ∈ q.2 → p.1 = q.1 := by
  intro p hp q hq x hxp hxq
  have hx : x ∈ done.map CdsCoord.cds := (hinv.cover x).mp ⟨p, hp, hxp⟩
  rcases List.mem_map.mp hx with ⟨a, ha, rfl⟩
  exact (hinv.comp p hp q hq a ha a ha hxp hxq).mpr Relation.ReflTransGen.refl

theorem Inv.init : Inv [] ⟨[], 0, []⟩ where
  keysNodup := List.nodup_nil
  keysLt := by intro p hp; cases hp
  nonempty := by intro p hp; cases hp
  cover := by intro x; simp
  comp := by intro p hp; cases hp
  activeSound := by intro t ht; cases ht
  activeComplete := by intro r hr; cases hr

/-- Every already-processed region that overlaps the incoming region is
recorded: its current cluster id appears among the overlapping ids the
sweep collects. -/
theorem overlap_gives_id {done : List CdsCoord} {st : ClustState} {r : CdsCoord}
    (hinv : Inv done st)
    (hsort : ∀ a ∈ done, a.chrom = r.chrom → a.start ≤ r.start)
    {w : CdsCoord} (hw : w ∈ done) (hov : overlapRel w r) :
    ∃ p ∈ st.clusters,
      p.1 ∈ overlapIdsOf r.chrom r.start (pruneActive r.chrom r.start st.active) ∧
      w.cds ∈ p.2 := by
  obtain ⟨hch, hiv⟩ := hov
  have hws : r.start ≤ w.stop :=
    le_trans (le_trans (le_max_right _ _) hiv) (min_le_left _ _)
  rcases hinv.activeComplete w hw with ⟨t, ht, ht1, ht2, p, hp, hpk, hwp⟩ | ⟨s, hs, hsch, hss⟩
  · refine ⟨p, hp, ?_, hwp⟩
    rw [hpk]
    refine mem_overlapIdsOf.mpr ⟨t, ?_, ⟨?_, ?_⟩, rfl⟩
    · refine mem_pruneActive.mpr ⟨ht, Or.inr ?_⟩
      rw [ht2]
      exact hws
    · rw [ht1, hch]
    · rw [ht2]
      exact hws
  · exfalso
    have h1 : s.start ≤ r.start := hsort s hs (by rw [hsch, hch])
    omega

/-- Every overlapping id the sweep collects names a live cluster holding
some already-processed region that overlaps the incoming one. -/
theorem id_gives_overlap {done : List CdsCoord} {st : ClustState} {r : CdsCoord}
    (hinv : Inv done st)
    (hsort : ∀ a ∈ done, a.chrom = r.chrom → a.start ≤ r.start)
    (hvalid : ∀ a ∈ done, a.start ≤ a.stop) (hvr : r.start ≤ r.stop)
    {cid : ℕ}
    (hcid : cid ∈ overlapIdsOf r.chrom r.start (pruneActive r.chrom r.start st.active)) :
    ∃ p ∈ st.clusters, p.1 = cid ∧ ∃ w ∈ done, w.cds ∈ p.2 ∧ overlapRel w r := by
  rcases mem_overlapIdsOf.mp hcid with ⟨t, htacts, ⟨htc, hts⟩, htid⟩
  have htact : t ∈ st.active := (mem_pruneActive.mp htacts).1
  rcases hinv.activeSound t htact with ⟨w, hw, hwc, hwe, p, hp, hpk, hwp⟩
  have hch : w.chrom = r.chrom := by rw [hwc, htc]
  have h1 : w.start ≤ r.start := hsort w hw hch
  have h2 : r.start ≤ w.stop := by
    rw [hwe]
    exact hts
  refine ⟨p, hp, by rw [hpk, htid], w, hw, hwp, hch, ?_⟩
  have h3 := hvalid w hw
  omega

/-- Preservation of the sweep invariant when the incoming region overlaps
no active cluster: a fresh singleton cluster is allocated. -/
theorem step_inv_nil {done : List CdsCoord} {st : ClustState} {r : CdsCoord}
    (hsort : ∀ a ∈ done, a.chrom = r.chrom → a.start ≤ r.start)
    (hnew : r.cds ∉ done.map CdsCoord.cds)
    (hinv : Inv done st)
    (hno : overlapIdsOf r.chrom r.start (pruneActive r.chrom r.start st.active) = []) :
    Inv (done ++ [r]) (stepRegion st r) := by
  rw [stepRegion_nil hno]
  have hrd : r ∉ done := fun hr => hnew (List.mem_map.mpr ⟨r, hr, rfl⟩)
  have hmemD : ∀ a : CdsCoord, a ∈ done ++ [r] ↔ a ∈ r :: done := by
    intro a
    simp [List.mem_append, List.mem_cons, or_comm]
  have hiso : ∀ w ∈ done, ¬ overlapRel w r := by
    intro w hw hov
    rcases overlap_gives_id hinv hsort hw hov with ⟨p, _, hpid, _⟩
    rw [hno] at hpid
    exact List.not_mem_nil _ hpid
  have hconn : ∀ a ∈ done, ∀ b ∈ done,
      (ConnectedIn (done ++ [r]) a b ↔ ConnectedIn done a b) := by
    intro a ha b hb
    rw [connectedIn_congr hmemD, connected_insert_iff hrd ha hb]
    constructor
    · rintro (h | ⟨x, hx, _, _, hxv, _, _, _⟩)
      · exact h
      · exact absurd hxv (hiso x hx)
    · exact Or.inl
  have hconn_r : ∀ a ∈ done, ¬ ConnectedIn (done ++ [r]) a r := by
    intro a ha h
    rw [connectedIn_congr hmemD, connected_insert_new_iff hrd ha] at h
    rcases h with ⟨x, hx, _, hxv⟩
    exact hiso x hx hxv
  have hRchar : ∀ a, a ∈ done ++ [r] → a.cds = r.cds → a = r := by
    intro a ha hac
    rcases List.mem_append.mp ha with h | h
    · exfalso
      apply hnew
      rw [← hac]
      exact List.mem_map.mpr ⟨a, h, rfl⟩
    · simpa using h
  have hold_mem : ∀ p : ℕ × Finset String, p ∈ st.clusters → ∀ a, a ∈ done ++ [r] →
      a.cds ∈ p.2 → a ∈ done := by
    intro p hp a haD hap
    have hacds : a.cds ∈ done.map CdsCoord.cds := (hinv.cover _).mp ⟨p, hp, hap⟩
    rcases List.mem_append.mp haD with ha | ha
    · exact ha
    · exfalso
      have har : a = r := by simpa using ha
      rw [har] at hacds
      exact hnew hacds
  refine ⟨?_, ?_, ?_, ?_, ?_, ?_, ?_⟩
  · refine List.nodup_cons.mpr ⟨?_, hinv.keysNodup⟩
    intro hmem
    rcases List.mem_map.mp hmem with ⟨p, hp, hpk⟩
    exact (Nat.ne_of_lt (hinv.keysLt p hp)) hpk
  · intro p hp
    rcases List.mem_cons.mp hp with rfl | hp'
    · exact Nat.lt_succ_self _
    · exact Nat.lt_succ_of_lt (hinv.keysLt p hp')
  · intro p hp
    rcases List.mem_cons.mp hp with rfl | hp'
    · exact ⟨r.cds, Finset.mem_singleton_self _⟩
    · exact hinv.nonempty p hp'
  · intro x
    rw [List.map_append]
    constructor
    · rintro ⟨p, hp, hxp⟩
      rcases List.mem_cons.mp hp with rfl | hp'
      · refine List.mem_append.mpr (Or.inr ?_)
        simpa using Finset.mem_singleton.mp hxp
      · exact List.mem_append.mpr (Or.inl ((hinv.cover x).mp ⟨p, hp', hxp⟩))
    · intro hx
      rcases List.mem_append.mp hx with hx | hx
      · rcases (hinv.cover x).mpr hx with ⟨p, hp, hxp⟩
        exact ⟨p, List.mem_cons_of_mem _ hp, hxp⟩
      · refine ⟨(st.nextId, {r.cds}), List.mem_cons_self _ _, ?_⟩
        simpa using hx
  · intro p hp q hq a ha b hb hap hbq
    rcases List.mem_cons.mp hp with rfl | hp'
    · have haR : a = r := hRchar a ha (Finset.mem_singleton.mp hap)
      rcases List.mem_cons.mp hq with rfl | hq'
      · have hbR : b = r := hRchar b hb (Finset.mem_singleton.mp hbq)
        subst haR
        subst hbR
        exact ⟨fun _ => Relation.ReflTransGen.refl, fun _ => rfl⟩
      · have hbD : b ∈ done := hold_mem q hq' b hb hbq
        subst haR
        constructor
        · intro hk
          exact absurd hk.symm (Nat.ne_of_lt (hinv.keysLt q hq'))
        · intro hcon
          exact absurd hcon.symm (hconn_r b hbD)
    · have haD : a ∈ done := hold_mem p hp' a ha hap
      rcases List.mem_cons.mp hq with rfl | hq'
      · have hbR : b = r := hRchar b hb (Finset.mem_singleton.mp hbq)
        subst hbR
        constructor
        · intro hk
          exact absurd hk (Nat.ne_of_lt (hinv.keysLt p hp'))
        · intro hcon
          exact absurd hcon (hconn_r a haD)
      · have hbD : b ∈ done := hold_mem q hq' b hb hbq
        rw [hconn a haD b hbD]
        exact hinv.comp p hp' q hq' a haD b hbD hap hbq
  · intro t ht
    rcases List.mem_append.mp ht with ht | ht
    · have htact : t ∈ st.active := (mem_pruneActive.mp ht).1
      rcases hinv.activeSound t htact with ⟨w, hw, h1, h2, p, hp, h3, h4⟩
      exact ⟨w, List.mem_append.mpr (Or.inl hw), h1, h2, p, List.mem_cons_of_mem _ hp, h3, h4⟩
    · have htr : t = (r.chrom, r.stop, st.nextId) := by simpa using ht
      subst htr
      exact ⟨r, List.mem_append.mpr (Or.inr (by simp)), rfl, rfl,
        (st.nextId, {r.cds}), List.mem_cons_self _ _, rfl, Finset.mem_singleton_self _⟩
  · intro w hw
    rcases List.mem_append.mp hw with hwD | hwR
    · rcases hinv.activeComplete w hwD with ⟨t, ht, h1, h2, p, hp, h3, h4⟩ | ⟨s, hs, h1, h2⟩
      · by_cases hkeep : t.1 ≠ r.chrom ∨ r.start ≤ t.2.1
        · exact Or.inl ⟨t, List.mem_append.mpr (Or.inl (mem_pruneActive.mpr ⟨ht, hkeep⟩)),
            h1, h2, p, List.mem_cons_of_mem _ hp, h3, h4⟩
        · push_neg at hkeep
          obtain ⟨hk1, hk2⟩ := hkeep
          refine Or.inr ⟨r, List.mem_append.mpr (Or.inr (by simp)), ?_, ?_⟩
          · rw [← hk1]
            exact h1
          · rw [← h2]
            exact hk2
      · exact Or.inr ⟨s, List.mem_append.mpr (Or.inl hs), h1, h2⟩
    · have hwr : w = r := by simpa using hwR
      subst hwr
      exact Or.inl ⟨(w.chrom, w.stop, st.nextId), List.mem_append.mpr (Or.inr (by simp)),
        rfl, rfl, (st.nextId, {w.cds}), List.mem_cons_self _ _, rfl, Finset.mem_singleton_self _⟩

/-- Preservation of the sweep invariant when the incoming region overlaps
one or more active clusters: all of them merge into the least id. -/
theorem step_inv_cons {done : List CdsCoord} {st : ClustState} {r : CdsCoord} {c : ℕ}
    {cs : List ℕ}
    (hsort : ∀ a ∈ done, a.chrom = r.chrom → a.start ≤ r.start)
    (hvalid : ∀ a ∈ done, a.start ≤ a.stop) (hvr : r.start ≤ r.stop)
    (hnew : r.cds ∉ done.map CdsCoord.cds)
    (hinv : Inv done st)
    (hids : overlapIdsOf r.chrom r.start (pruneActive r.chrom r.start st.active) = c :: cs) :
    Inv (done ++ [r]) (stepRegion st r) := by
  rw [stepRegion_cons hids]
  set ids := (c :: cs : List ℕ) with hids_def
  set target := listMin c cs with htarget_def
  have htarget_mem : target ∈ ids := listMin_mem c cs
  have hrd : r ∉ done := fun hr => hnew (List.mem_map.mpr ⟨r, hr, rfl⟩)
  have hmemD : ∀ a : CdsCoord, a ∈ done ++ [r] ↔ a ∈ r :: done := by
    intro a
    simp [List.mem_append, List.mem_cons, or_comm]
  have hRchar : ∀ a, a ∈ done ++ [r] → a.cds = r.cds → a = r := by
    intro a ha hac
    rcases List.mem_append.mp ha with h | h
    · exfalso
      apply hnew
      rw [← hac]
      exact List.mem_map.mpr ⟨a, h, rfl⟩
    · simpa using h
  have hold_mem : ∀ p : ℕ × Finset String, p ∈ st.clusters → ∀ a, a ∈ done ++ [r] →
      a.cds ∈ p.2 → a ∈ done := by
    intro p hp a haD hap
    have hacds : a.cds ∈ done.map CdsCoord.cds := (hinv.cover _).mp ⟨p, hp, hap⟩
    rcases List.mem_append.mp haD with ha | ha
    · exact ha
    · exfalso
      have har : a = r := by simpa using ha
      rw [har] at hacds
      exact hnew hacds
  have hF1 : ∀ cid ∈ ids, ∃ p ∈ st.clusters, p.1 = cid ∧
      ∃ w ∈ done, w.cds ∈ p.2 ∧ overlapRel w r := by
    intro cid hcid
    refine id_gives_overlap hinv hsort hvalid hvr ?_
    rw [hids]
    exact hcid
  have hF2 : ∀ w ∈ done, overlapRel w r → ∃ p ∈ st.clusters, p.1 ∈ ids ∧ w.cds ∈ p.2 := by
    intro w hw hov
    rcases overlap_gives_id hinv hsort hw hov with ⟨p, hp, hpid, hwp⟩
    rw [hids] at hpid
    exact ⟨p, hp, hpid, hwp⟩
  have hkey_iff : ∀ q ∈ st.clusters,
      (q.1 ∈ ids ↔ ∃ w ∈ done, w.cds ∈ q.2 ∧ overlapRel w r) := by
    intro q hq
    constructor
    · intro hqid
      rcases hF1 q.1 hqid with ⟨p, hp, hpk, w, hw, hwp, hov⟩
      have hpq : p = q := keys_nodup_eq hinv.keysNodup hp hq hpk
      rw [hpq] at hwp
      exact ⟨w, hw, hwp, hov⟩
    · rintro ⟨w, hw, hwq, hov⟩
      rcases hF2 w hw hov with ⟨p, hp, hpid, hwp⟩
      have hk := hinv.uniqueKey q hq p hp w.cds hwq hwp
      rw [hk]
      exact hpid
  have hconn_through : ∀ a ∈ done, ∀ b ∈ done, (ConnectedIn (done ++ [r]) a b ↔
      (ConnectedIn done a b ∨ ∃ x ∈ done, ∃ y ∈ done, overlapRel x r ∧ overlapRel y r ∧
        ConnectedIn done a x ∧ ConnectedIn done y b)) := by
    intro a ha b hb
    rw [connectedIn_congr hmemD]
    exact connected_insert_iff hrd ha hb
  have hconn_new : ∀ a ∈ done, (ConnectedIn (done ++ [r]) a r ↔
      ∃ x ∈ done, ConnectedIn done a x ∧ overlapRel x r) := by
    intro a ha
    rw [connectedIn_congr hmemD]
    exact connected_insert_new_iff hrd ha
  have hConnR : ∀ a ∈ done, (∃ pa ∈ st.clusters, pa.1 ∈ ids ∧ a.cds ∈ pa.2) →
      ConnectedIn (done ++ [r]) a r := by
    rintro a ha ⟨pa, hpa, hpaid, hapa⟩
    rcases (hkey_iff pa hpa).mp hpaid with ⟨w, hw, hwpa, hov⟩
    have hConn_aw : ConnectedIn done a w :=
      (hinv.comp pa hpa pa hpa a ha w hw hapa hwpa).mp rfl
    exact (hconn_new a ha).mpr ⟨w, hw, hConn_aw, hov⟩
  have hNotR : ∀ b ∈ done, ∀ qb, qb ∈ st.clusters → qb.1 ∉ ids → b.cds ∈ qb.2 →
      ¬ ConnectedIn (done ++ [r]) b r := by
    intro b hb qb hqb hqbid hbqb hcon
    rcases (hconn_new b hb).mp hcon with ⟨x, hx, hbx, hov⟩
    rcases hF2 x hx hov with ⟨px, hpx, hpxid, hxpx⟩
    have hk : qb.1 = px.1 := (hinv.comp qb hqb px hpx b hb x hx hbqb hxpx).mpr hbx
    apply hqbid
    rw [hk]
    exact hpxid
  have hIsoConn : ∀ a ∈ done, ∀ b ∈ done, ∀ pa, pa ∈ st.clusters → pa.1 ∉ ids →
      a.cds ∈ pa.2 → (ConnectedIn (done ++ [r]) a b ↔ ConnectedIn done a b) := by
    intro a ha b hb pa hpa hpaid hapa
    rw [hconn_through a ha b hb]
    constructor
    · rintro (h | ⟨x, hx, _, _, hxv, _, hax, _⟩)
      · exact h
      · exfalso
        rcases hF2 x hx hxv with ⟨px, hpx, hpxid, hxpx⟩
        have hk : pa.1 = px.1 := (hinv.comp pa hpa px hpx a ha x hx hapa hxpx).mpr hax
        apply hpaid
        rw [hk]
        exact hpxid
    · exact Or.inl
  have hfilt : ∀ q : ℕ × Finset String,
      q ∈ st.clusters.filter (fun p => decide (p.1 ∉ ids)) ↔ q ∈ st.clusters ∧ q.1 ∉ ids := by
    intro q
    simp [List.mem_filter]
  have hMchar : ∀ x : String, x ∈ mergedMembers ids st.clusters r.cds ↔
      (x = r.cds ∨ ∃ p ∈ st.clusters, p.1 ∈ ids ∧ x ∈ p.2) := fun x => mem_mergedMembers
  have hMtoR : ∀ a, a ∈ done ++ [r] → a.cds ∈ mergedMembers ids st.clusters r.cds →
      ConnectedIn (done ++ [r]) a r := by
    intro a haD haM
    rcases (hMchar a.cds).mp haM with hac | ⟨pa, hpa, hpaid, hapa⟩
    · rw [hRchar a haD hac]
      exact Relation.ReflTransGen.refl
    · exact hConnR a (hold_mem pa hpa a haD hapa) ⟨pa, hpa, hpaid, hapa⟩
  obtain ⟨pt, hpt, hptk, _⟩ := hF1 target htarget_mem
  refine ⟨?_, ?_, ?_, ?_, ?_, ?_, ?_⟩
  · refine List.nodup_cons.mpr ⟨?_, ?_⟩
    · intro hmem
      rcases List.mem_map.mp hmem with ⟨q, hq, hqk⟩
      rcases (hfilt q).mp hq with ⟨_, hqid⟩
      apply hqid
      rw [hqk]
      exact htarget_mem
    · exact List.Nodup.sublist (List.Sublist.map Prod.fst (List.filter_sublist _))
        hinv.keysNodup
  · intro p hp
    rcases List.mem_cons.mp hp with rfl | hp'
    · rw [← hptk]
      exact hinv.keysLt pt hpt
    · exact hinv.keysLt p ((hfilt p).mp hp').1
  · intro p hp
    rcases List.mem_cons.mp hp with rfl | hp'
    · exact ⟨r.cds, (hMchar r.cds).mpr (Or.inl rfl)⟩
    · exact hinv.nonempty p ((hfilt p).mp hp').1
  · intro x
    rw [List.map_append]
    constructor
    · rintro ⟨p, hp, hxp⟩
      rcases List.mem_cons.mp hp with rfl | hp'
      · rcases (hMchar x).mp hxp with rfl | ⟨q, hq, _, hxq⟩
        · refine List.mem_append.mpr (Or.inr ?_)
          simp
        · exact List.mem_append.mpr (Or.inl ((hinv.cover x).mp ⟨q, hq, hxq⟩))
      · exact List.mem_append.mpr (Or.inl ((hinv.cover x).mp ⟨p, ((hfilt p).mp hp').1, hxp⟩))
    · intro hx
      rcases List.mem_append.mp hx with hx | hx
      · rcases (hinv.cover x).mpr hx with ⟨p, hp, hxp⟩
        by_cases hpid : p.1 ∈ ids
        · exact ⟨(target, mergedMembers ids st.clusters r.cds), List.mem_cons_self _ _,
            (hMchar x).mpr (Or.inr ⟨p, hp, hpid, hxp⟩)⟩
        · exact ⟨p, List.mem_cons_of_mem _ ((hfilt p).mpr ⟨hp, hpid⟩), hxp⟩
      · refine ⟨(target, mergedMembers ids st.clusters r.cds), List.mem_cons_self _ _, ?_⟩
        refine (hMchar x).mpr (Or.inl ?_)
        simpa using hx
  · intro p hp q hq a ha b hb hap hbq
    rcases List.mem_cons.mp hp with rfl | hp'
    · rcases List.mem_cons.mp hq with rfl | hq'
      · exact ⟨fun _ => (hMtoR a ha hap).trans (hMtoR b hb hbq).symm, fun _ => rfl⟩
      · obtain ⟨hqcl, hqid⟩ := (hfilt q).mp hq'
        have hbD : b ∈ done := hold_mem q hqcl b hb hbq
        constructor
        · intro hk
          exfalso
          apply hqid
          rw [← hk]
          exact htarget_mem
        · intro hcon
          exfalso
          exact hNotR b hbD q hqcl hqid hbq (hcon.symm.trans (hMtoR a ha hap))
    · obtain ⟨hpcl, hpid⟩ := (hfilt p).mp hp'
      have haD : a ∈ done := hold_mem p hpcl a ha hap
      rcases List.mem_cons.mp hq with rfl | hq'
      · constructor
        · intro hk
          exfalso
          apply hpid
          rw [hk]
          exact htarget_mem
        · intro hcon
          exfalso
          exact hNotR a haD p hpcl hpid hap (hcon.trans (hMtoR b hb hbq))
      · obtain ⟨hqcl, hqid⟩ := (hfilt q).mp hq'
        have hbD : b ∈ done := hold_mem q hqcl b hb hbq
        rw [hIsoConn a haD b hbD p hpcl hpid hap]
        exact hinv.comp p hpcl q hqcl a haD b hbD hap hbq
  · intro t ht
    rcases List.mem_append.mp ht with ht | ht
    · rcases List.mem_map.mp ht with ⟨u, hu, hut⟩
      have huact : u ∈ st.active := (mem_pruneActive.mp hu).1
      rcases hinv.activeSound u huact with ⟨w, hw, h1, h2, p, hp, h3, h4⟩
      by_cases huid : u.2.2 ∈ ids
      · rw [if_pos huid] at hut
        refine ⟨w, List.mem_append.mpr (Or.inl hw), ?_, ?_,
          (target, mergedMembers ids st.clusters r.cds), List.mem_cons_self _ _, ?_, ?_⟩
        · rw [← hut]
          exact h1
        · rw [← hut]
          exact h2
        · rw [← hut]
        · refine (hMchar w.cds).mpr (Or.inr ⟨p, hp, ?_, h4⟩)
          rw [h3]
          exact huid
      · rw [if_neg huid] at hut
        subst hut
        refine ⟨w, List.mem_append.mpr (Or.inl hw), h1, h2, p,
          List.mem_cons_of_mem _ ((hfilt p).mpr ⟨hp, ?_⟩), h3, h4⟩
        rw [h3]
        exact huid
    · have htr : t = (r.chrom, r.stop, target) := by simpa using ht
      subst htr
      exact ⟨r, List.mem_append.mpr (Or.inr (by simp)), rfl, rfl,
        (target, mergedMembers ids st.clusters r.cds), List.mem_cons_self _ _, rfl,
        (hMchar r.cds).mpr (Or.inl rfl)⟩
  · intro w hw
    rcases List.mem_append.mp hw with hwD | hwR
    · rcases hinv.activeComplete w hwD with ⟨t, ht, h1, h2, p, hp, h3, h4⟩ | ⟨s, hs, h1, h2⟩
      · by_cases hkeep : t.1 ≠ r.chrom ∨ r.start ≤ t.2.1
        · have htacts : t ∈ pruneActive r.chrom r.start st.active :=
            mem_pruneActive.mpr ⟨ht, hkeep⟩
          by_cases htid : t.2.2 ∈ ids
          · refine Or.inl ⟨(t.1, t.2.1, target), List.mem_append.mpr (Or.inl
              (List.mem_map.mpr ⟨t, htacts, by rw [if_pos htid]⟩)), h1, h2,
              (target, mergedMembers ids st.clusters r.cds), List.mem_cons_self _ _, rfl, ?_⟩
            refine (hMchar w.cds).mpr (Or.inr ⟨p, hp, ?_, h4⟩)
            rw [h3]
            exact htid
          · refine Or.inl ⟨t, List.mem_append.mpr (Or.inl
              (List.mem_map.mpr ⟨t, htacts, by rw [if_neg htid]⟩)), h1, h2, p,
              List.mem_cons_of_mem _ ((hfilt p).mpr ⟨hp, ?_⟩), h3, h4⟩
            rw [h3]
            exact htid
        · push_neg at hkeep
          obtain ⟨hk1, hk2⟩ := hkeep
          refine Or.inr ⟨r, List.mem_append.mpr (Or.inr (by simp)), ?_, ?_⟩
          · rw [← hk1]
            exact h1
          · rw [← h2]
            exact hk2
      · exact Or.inr ⟨s, List.mem_append.mpr (Or.inl hs), h1, h2⟩
    · have hwr : w = r := by simpa using hwR
      subst hwr
      exact Or.inl ⟨(w.chrom, w.stop, target), List.mem_append.mpr (Or.inr (by simp)),
        rfl, rfl, (target, mergedMembers ids st.clusters w.cds), List.mem_cons_self _ _, rfl,
        (hMchar w.cds).mpr (Or.inl rfl)⟩

/-- Preservation of the sweep invariant by one loop iteration. -/
theorem step_inv {done : List CdsCoord} {st : ClustState} {r : CdsCoord}
    (hsort : ∀ a ∈ done, a.chrom = r.chrom → a.start ≤ r.start)
    (hvalid : ∀ a ∈ done, a.start ≤ a.stop) (hvr : r.start ≤ r.stop)
    (hnew : r.cds ∉ done.map CdsCoord.cds)
    (hinv : Inv done st) : Inv (done ++ [r]) (stepRegion st r) := by
  cases hcase : overlapIdsOf r.chrom r.start (pruneActive r.chrom r.start st.active) with
  | nil => exact step_inv_nil hsort hnew hinv hcase
  | cons c cs => exact step_inv_cons hsort hvalid hvr hnew hinv hcase

theorem keyLe_weak {a b : CdsCoord} (hab : keyLe a b) (hch : a.chrom = b.chrom) :
    a.start ≤ b.start := by
  unfold keyLe coordKey at hab
  rw [Prod.Lex.le_iff] at hab
  rcases hab with h | ⟨_, h2⟩
  · exfalso
    rw [hch] at h
    exact lt_irrefl _ h
  · rw [Prod.Lex.le_iff] at h2
    rcases h2 with h | ⟨h, _⟩
    · exact le_of_lt h
    · exact le_of_eq h

/-- The sweep invariant holds after folding any sorted remainder. -/
theorem foldl_inv (rest : List CdsCoord) : ∀ (done : List CdsCoord) (st : ClustState),
    (∀ a ∈ done, ∀ b ∈ rest, a.chrom = b.chrom → a.start ≤ b.start) →
    List.Pairwise (fun a b => a.chrom = b.chrom → a.start ≤ b.start) rest →
    (∀ a ∈ done ++ rest, a.start ≤ a.stop) →
    ((done ++ rest).map CdsCoord.cds).Nodup →
    Inv done st → Inv (done ++ rest) (rest.foldl stepRegion st) := by
  induction rest with
  | nil =>
    intro done st _ _ _ _ hinv
    simpa using hinv
  | cons r rest' ih =>
    intro done st hcross hpair hvalid hnodup hinv
    have hassoc : done ++ r :: rest' = (done ++ [r]) ++ rest' := by simp
    have hvr : r.start ≤ r.stop := hvalid r (by simp)
    have hnew : r.cds ∉ done.map CdsCoord.cds := by
      intro hmem
      rw [List.map_append] at hnodup
      have hdisj := (List.nodup_append.mp hnodup).2.2
      exact hdisj hmem (by simp)
    have hstep : Inv (done ++ [r]) (stepRegion st r) :=
      step_inv (fun a ha hch => hcross a ha r (by simp) hch)
        (fun a ha => hvalid a (List.mem_append.mpr (Or.inl ha))) hvr hnew hinv
    have hcross' : ∀ a ∈ done ++ [r], ∀ b ∈ rest', a.chrom = b.chrom → a.start ≤ b.start := by
      intro a ha b hb
      rcases List.mem_append.mp ha with ha' | ha'
      · exact hcross a ha' b (List.mem_cons_of_mem _ hb)
      · have har : a = r := by simpa using ha'
        subst har
        exact (List.pairwise_cons.mp hpair).1 b hb
    have hpair' := (List.pairwise_cons.mp hpair).2
    have hvalid' : ∀ a ∈ (done ++ [r]) ++ rest', a.start ≤ a.stop := by
      rw [← hassoc]
      exact hvalid
    have hnodup' : (((done ++ [r]) ++ rest').map CdsCoord.cds).Nodup := by
      rw [← hassoc]
      exact hnodup
    have hres := ih (done ++ [r]) (stepRegion st r) hcross' hpair' hvalid' hnodup' hstep
    rw [hassoc]
    simpa using hres

theorem parseRegion_cds {n : String} {rg : CdsCoord} (h : parseRegion n = some rg) :
    rg.cds = n := by
  unfold parseRegion at h
  cases hp : parse_cds_coordinates n with
  | none =>
    rw [hp] at h
    cases h
  | some t =>
    rw [hp] at h
    cases h
    rfl

theorem filterMap_parse_cds_sublist (names : List String) :
    ((names.filterMap parseRegion).map CdsCoord.cds).Sublist names := by
  induction names with
  | nil => simp
  | cons n t ih =>
    cases hp : parseRegion n with
    | none =>
      rw [List.filterMap_cons_none hp]
      exact ih.trans (List.sublist_cons_self n t)
    | some rg =>
      rw [List.filterMap_cons_some hp, List.map_cons, parseRegion_cds hp]
      exact ih.cons₂ n

/-- The sweep invariant holds for the final state of
`build_overlap_clusters` run on any coordinate list. -/
theorem buildOverlapClusters_inv (L : List CdsCoord)
    (hnodup : (L.map CdsCoord.cds).Nodup)
    (hvalid : ∀ a ∈ L, a.start ≤ a.stop) :
    Inv (sortCoords L) ((sortCoords L).foldl stepRegion ⟨[], 0, []⟩) := by
  have hperm : List.Perm (sortCoords L) L := List.perm_insertionSort keyLe L
  have hnodup' : ((sortCoords L).map CdsCoord.cds).Nodup :=
    ((hperm.map CdsCoord.cds).nodup_iff).mpr hnodup
  have hvalid' : ∀ a ∈ sortCoords L, a.start ≤ a.stop :=
    fun a ha => hvalid a (hperm.mem_iff.mp ha)
  have hsorted : List.Pairwise (fun a b => a.chrom = b.chrom → a.start ≤ b.start)
      (sortCoords L) := by
    have hs : List.Sorted keyLe (sortCoords L) := List.sorted_insertionSort keyLe L
    exact List.Pairwise.imp (fun hab hch => keyLe_weak hab hch) hs
  have hres := foldl_inv (sortCoords L) [] ⟨[], 0, []⟩ (by intro a ha; cases ha) hsorted
    (by simpa using hvalid') (by simpa using hnodup') Inv.init
  simpa using hres

/-! ## Claim theorems -/

/-- Claim C8, counterexample: with 8 detected CPUs and 4 GiB of available
memory the code sizes the pool as 1, while the spec's formula
`max(1, min(cores/2, mem/2GiB))` gives 2. -/
theorem claim_C8_counterexample :
    get_safe_process_count 8 4294967296 ≠ specPoolSize 8 4294967296 := by decide

/-- Claim C8, amended: the worker-pool size equals
`max(1, min(available_cores // 4, 8, available_memory // 4GiB))` — a
quarter of the cores capped at eight, and four gibibytes per worker. -/
theorem claim_C8_amended (totalCpus memAvailable : ℕ) :
    get_safe_process_count totalCpus memAvailable =
      max 1 (min (min (totalCpus / 4) 8) (memAvailable / (4 * 1024 * 1024 * 1024))) := by
  show min (max 1 (min (totalCpus / 4) 8)) (max 1 (memAvailable / (4 * 1024 * 1024 * 1024))) = _
  omega

/-- Claim C4, counterexample: a pair of byte-identical sequences whose
samples are assigned different cohorts makes `process_pair` return
Python `None`, not the IdenticalSentinel tuple. -/
theorem claim_C4_counterexample :
    (process_pair (fun n => if n = "a_0" then some 0 else some 1) (fun _ => "ATG")
      "cds" true (none, none, none) "a_0" "b_1").result = none := by
  decide

/-- Claim C4, amended: for every pair whose two sequences are
byte-identical and whose samples are assigned the same cohort,
`process_pair` returns the IdenticalSentinel result (omega = -1,
dN = dS = 0) and the external tool is not invoked (no control file, no
`run_codeml`). -/
theorem claim_C4_amended (groups : String → Option ℤ) (seqs : String → String)
    (cdsId : String) (codemlSuccess : Bool) (parsed : Option ℚ × Option ℚ × Option ℚ)
    (s1 s2 : String) (hg : groups s1 = groups s2) (hs : seqs s1 = seqs s2) :
    process_pair groups seqs cdsId codemlSuccess parsed s1 s2 =
      ⟨some ⟨pyStrip s1, pyStrip s2, groups s1, groups s1, some 0, some 0, some (-1), cdsId⟩,
        false⟩ := by
  simp [process_pair, hg, hs]

/-- Claim C4, witness: the amended theorem applied to a concrete
same-cohort identical pair. -/
theorem claim_C4_witness :
    process_pair (fun _ => some 0) (fun _ => "ATG") "cds" true (none, none, none) "a_0" "b_0" =
      ⟨some ⟨pyStrip "a_0", pyStrip "b_0", some 0, some 0, some 0, some 0, some (-1), "cds"⟩,
        false⟩ :=
  claim_C4_amended _ _ _ _ _ _ _ rfl rfl

/-- Claim C5: within-cohort pair generation emits exactly
`C(n0,2) + C(n1,2)` pairs, and the two samples of every generated pair
carry the same cohort assignment. -/
theorem claim_C5 (samples : List (String × Option ℤ))
    (hnd : (samples.map Prod.fst).Nodup) :
    (withinGroupPairs samples).length =
      Nat.choose (samples.filter (fun p => decide (p.2 = some 0))).length 2 +
      Nat.choose (samples.filter (fun p => decide (p.2 = some 1))).length 2 ∧
    ∀ p ∈ withinGroupPairs samples, ∀ ga gb,
      (p.1, ga) ∈ samples → (p.2, gb) ∈ samples → ga = gb := by
  constructor
  · simp [withinGroupPairs, pairsOf_length, group0Names, group1Names]
  · intro p hp ga gb hga hgb
    rcases List.mem_append.mp hp with h | h
    · have h1 := (mem_pairsOf h).1
      have h2 := (mem_pairsOf h).2
      rw [assoc_nodup_unique hnd hga (mem_group0Names h1),
        assoc_nodup_unique hnd hgb (mem_group0Names h2)]
    · have h1 := (mem_pairsOf h).1
      have h2 := (mem_pairsOf h).2
      rw [assoc_nodup_unique hnd hga (mem_group1Names h1),
        assoc_nodup_unique hnd hgb (mem_group1Names h2)]

/-- Claim C5, witness: on 3 cohort-0 and 3 cohort-1 samples exactly
6 pairs are generated (never 15), none of them cross-cohort. -/
theorem claim_C5_witness :
    (samplesC5.map Prod.fst).Nodup ∧ (withinGroupPairs samplesC5).length = 6 ∧
    ∀ p ∈ withinGroupPairs samplesC5, ∀ ga gb,
      (p.1, ga) ∈ samplesC5 → (p.2, gb) ∈ samplesC5 → ga = gb :=
  ⟨by decide, by decide, (claim_C5 samplesC5 (by decide)).2⟩

/-- Claim C3, counterexample: a sample with 2 normal comparisons,
1 sentinel (-1) comparison and 1 Failed (NaN) comparison reports
`Num_Comparisons = 3`, not 2 — the `~isin([-1, 99])` filter keeps NaN. -/
theorem claim_C3_counterexample :
    num_comparisons rowsC3 "s_0" ≠ 2 ∧ num_comparisons rowsC3 "s_0" = 3 := by decide

/-- Claim C3, amended: the per-sample mean and median omega are computed
over the sample's comparisons excluding -1, 99 and NaN (NaN when none
remain), but the reported comparison count excludes only the sentinels
-1 and 99 and retains NaN entries: it equals the number of clean values
plus the number of NaN comparisons. -/
theorem claim_C3_amended (rows : List PairResult) (s : String) :
    mean_dNdS rows s = listMeanQ (specCleanOmegas rows s) ∧
    median_dNdS rows s = listMedianQ (specCleanOmegas rows s) ∧
    num_comparisons rows s =
      (specCleanOmegas rows s).length +
        ((sample_df rows s).map (fun r => r.omega)).countP (fun o => decide (o = none)) := by
  have key : (omegaKept rows s).filterMap id = specCleanOmegas rows s :=
    filter_sentinel_filterMap _
  refine ⟨?_, ?_, ?_⟩
  · by_cases h : omegaKept rows s = []
    · have h2 : specCleanOmegas rows s = [] := by rw [← key, h]; rfl
      simp [mean_dNdS, listMeanQ, h, h2]
    · simp only [mean_dNdS, pandasMean, listMeanQ, key]
      simp [h]
  · by_cases h : omegaKept rows s = []
    · have h2 : specCleanOmegas rows s = [] := by rw [← key, h]; rfl
      simp [median_dNdS, listMedianQ, h, h2]
    · simp only [median_dNdS, pandasMedian, listMedianQ, key]
      simp [h]
  · have := length_keep_split ((sample_df rows s).map (fun r => r.omega))
    simpa [num_comparisons, omegaKept, specCleanOmegas] using this

/-- Claim C7: a result saved for a key and then loaded for the same key
is returned as saved, and `analyze_cds_parallel` returns an existing
cached result directly — same result tuple, unchanged store, and the
analysis worker is not invoked. -/
theorem claim_C7 :
    (∀ (store : CacheStore CdsResult) (cds : String) (r : CdsResult),
      load_cached_result (save_cached_result store cds r) cds = some r) ∧
    (∀ (worker : List (String × String × Option ℚ) → WorkerOut)
        (store : CacheStore CdsResult) (rows : List (String × String × Option ℚ))
        (cds : String) (r : CdsResult), load_cached_result store cds = some r →
      analyze_cds_parallel worker store rows cds = (cds, r, store, false)) := by
  constructor
  · intro store cds r
    simp [load_cached_result, save_cached_result, List.lookup]
  · intro worker store rows cds r h
    simp [analyze_cds_parallel, h]

/-- Claim C7, witness: the round trip and the cache-hit short-circuit at
a concrete key, store and result. -/
theorem claim_C7_witness :
    load_cached_result (save_cached_result ([] : CacheStore CdsResult)
      "chr1_start0_end9" junkResult) "chr1_start0_end9" = some junkResult ∧
    analyze_cds_parallel (fun _ => ⟨none, none, none, 0, 0⟩)
      (save_cached_result [] "chr1_start0_end9" junkResult) [] "chr1_start0_end9" =
      ("chr1_start0_end9", junkResult, save_cached_result [] "chr1_start0_end9" junkResult,
        false) :=
  ⟨claim_C7.1 [] _ _, claim_C7.2 _ _ _ _ junkResult (claim_C7.1 [] _ _)⟩

/-- Claim C10, counterexample: a region with 0 cohort-0 sequences (fewer
than 10) but a stale cache entry returns the cached result — whose effect
size is 5, not NaN. -/
theorem claim_C10_counterexample :
    n0Of ([] : List (String × String × Option ℚ)) < 10 ∧
    (analyze_cds_parallel (fun _ => ⟨none, none, none, 0, 0⟩)
      (save_cached_result [] "chr9_start0_end9" junkResult) []
      "chr9_start0_end9").2.1.observed_effect_size ≠ none := by decide

/-- Claim C10, amended: for every region with no cached result and fewer
than 10 unique sequence ids in either cohort, `analyze_cds_parallel`
returns NaN effect size, p-value and standard error, zero comparison
counts for both groups, and does not run the mixed-model worker. -/
theorem claim_C10_amended (worker : List (String × String × Option ℚ) → WorkerOut)
    (store : CacheStore CdsResult) (rows : List (String × String × Option ℚ))
    (cds : String) (hmiss : load_cached_result store cds = none)
    (hsmall : n0Of rows < 10 ∨ n1Of rows < 10) :
    (analyze_cds_parallel worker store rows cds).2.1.observed_effect_size = none ∧
    (analyze_cds_parallel worker store rows cds).2.1.p_value = none ∧
    (analyze_cds_parallel worker store rows cds).2.1.std_err = none ∧
    (analyze_cds_parallel worker store rows cds).2.1.num_comp_group_0 = 0 ∧
    (analyze_cds_parallel worker store rows cds).2.1.num_comp_group_1 = 0 ∧
    (analyze_cds_parallel worker store rows cds).2.2.2 = false := by
  simp [analyze_cds_parallel, hmiss, analyze_cds_fresh, if_pos hsmall]

/-- Claim C10, witness: the amended theorem at a concrete empty store and
a region whose rows give cohort counts 1 and 1. -/
theorem claim_C10_witness :
    load_cached_result ([] : CacheStore CdsResult) "chr2_start0_end9" = none ∧
    (n0Of [("x_0", "y_1", some 1)] < 10 ∨ n1Of [("x_0", "y_1", some 1)] < 10) ∧
    (analyze_cds_parallel (fun _ => ⟨some 7, some 1, some 1, 3, 3⟩) []
      [("x_0", "y_1", some 1)] "chr2_start0_end9").2.1.observed_effect_size = none ∧
    (analyze_cds_parallel (fun _ => ⟨some 7, some 1, some 1, 3, 3⟩) []
      [("x_0", "y_1", some 1)] "chr2_start0_end9").2.2.2 = false :=
  ⟨by decide, by decide,
    (claim_C10_amended _ [] _ "chr2_start0_end9" (by decide) (by decide)).1,
    (claim_C10_amended _ [] _ "chr2_start0_end9" (by decide) (by decide)).2.2.2.2.2⟩

/-- Claim C2, counterexample: for the two-member cluster `clusterC2` the
function returns a deduplicated comparison count of 1, but the union of
its member regions' pairwise-key sets has cardinality 2 — the member with
a NaN effect size is skipped before its pairs are accumulated. -/
theorem claim_C2_counterexample :
    (combine_cluster_evidence (fun _ _ => 0) clusterC2 rowsC2).map (fun e => e.n_comparisons) =
      Except.ok 1 ∧
    ((((clusterDataOf clusterC2 rowsC2).map
      (fun row : ClusterRow => row.pairwise_comparisons)).foldr (· ∪ ·) ∅).card) = 2 :=
  ⟨rfl, by decide⟩

/-- Claim C2, amended: when the weight normalisation does not raise, the
deduplicated comparison count equals the cardinality of the union of the
pairwise-comparison key sets of the member regions with a defined
(non-NaN) effect size; consequently it is at most the sum of those
regions' individual counts, with equality exactly when no two of them
share a sample pair. -/
theorem claim_C2_amended (stouffer : List ℚ → List ℚ → ℚ)
    (cluster : List String) (rows : List ClusterRow)
    (hnc : ¬ (clusterWeights cluster ≠ [] ∧ ((clusterWeights cluster).map Prod.snd).sum = 0)) :
    (combine_cluster_evidence stouffer cluster rows).map (fun e => e.n_comparisons) =
      Except.ok ((((validRowsOf cluster rows).map
        (fun row : ClusterRow => row.pairwise_comparisons)).foldr (· ∪ ·) ∅).card) ∧
    (((validRowsOf cluster rows).map
        (fun row : ClusterRow => row.pairwise_comparisons)).foldr (· ∪ ·) ∅).card ≤
      (((validRowsOf cluster rows).map
        (fun row : ClusterRow => row.pairwise_comparisons)).map Finset.card).sum ∧
    ((((validRowsOf cluster rows).map
          (fun row : ClusterRow => row.pairwise_comparisons)).foldr (· ∪ ·) ∅).card =
        (((validRowsOf cluster rows).map
          (fun row : ClusterRow => row.pairwise_comparisons)).map Finset.card).sum ↔
      ((validRowsOf cluster rows).map (fun row : ClusterRow => row.pairwise_comparisons)).Pairwise Disjoint) := by
  refine ⟨?_, card_foldr_union_le _, card_foldr_union_eq_iff _⟩
  unfold combine_cluster_evidence
  rw [if_neg hnc]
  by_cases hlen : (validRowsOf cluster rows).length > 0
  · rw [if_pos hlen]
    by_cases hp : validPvalsOf cluster rows ≠ []
    · rw [if_pos hp]
      rfl
    · rw [if_neg hp]
      rfl
  · rw [if_neg hlen]
    have hnil : validRowsOf cluster rows = [] :=
      List.length_eq_zero.mp (Nat.eq_zero_of_not_pos hlen)
    simp [hnil, Except.map]

/-- Claim C2, witness: the amended theorem at the concrete cluster
`clusterC2`, whose valid-row pair-set union has cardinality 1. -/
theorem claim_C2_witness :
    (¬ (clusterWeights clusterC2 ≠ [] ∧ ((clusterWeights clusterC2).map Prod.snd).sum = 0)) ∧
    (combine_cluster_evidence (fun _ _ => 0) clusterC2 rowsC2).map (fun e => e.n_comparisons) =
      Except.ok ((((validRowsOf clusterC2 rowsC2).map
        (fun row : ClusterRow => row.pairwise_comparisons)).foldr (· ∪ ·) ∅).card) ∧
    ((((validRowsOf clusterC2 rowsC2).map
      (fun row : ClusterRow => row.pairwise_comparisons)).foldr (· ∪ ·) ∅).card) = 1 :=
  ⟨by decide, (claim_C2_amended _ _ _ (by decide)).1, by decide⟩

/-- Claim C9, counterexample: a cluster whose only member is the
zero-length region `chr1_start5_end5` and has no valid effect size makes
`combine_cluster_evidence` raise `ZeroDivisionError` in the weight
normalisation instead of returning the NaN/NaN/0 record. -/
theorem claim_C9_counterexample :
    combine_cluster_evidence (fun _ _ => 0) clusterC9 rowsC9 = Except.error () := rfl

/-- Claim C9, amended: for every cluster with zero valid member regions,
provided the weight normalisation does not divide by zero (some member
parses with nonzero total length, or no member parses at all), the
function returns NaN combined p-value, NaN weighted effect size and a
deduplicated comparison count of 0. -/
theorem claim_C9_amended (stouffer : List ℚ → List ℚ → ℚ)
    (cluster : List String) (rows : List ClusterRow)
    (hnc : ¬ (clusterWeights cluster ≠ [] ∧ ((clusterWeights cluster).map Prod.snd).sum = 0))
    (hnv : validRowsOf cluster rows = []) :
    combine_cluster_evidence stouffer cluster rows = Except.ok ⟨none, none, 0, 0, ∅⟩ := by
  unfold combine_cluster_evidence
  rw [if_neg hnc, if_neg (by simp [hnv])]
  simp [clusterPairsOf, hnv]

/-- Claim C9, witness: the amended theorem at a concrete one-member
cluster of positive length with a NaN effect size. -/
theorem claim_C9_witness :
    (¬ (clusterWeights clusterC9w ≠ [] ∧ ((clusterWeights clusterC9w).map Prod.snd).sum = 0)) ∧
    validRowsOf clusterC9w rowsC9w = [] ∧
    combine_cluster_evidence (fun _ _ => 0) clusterC9w rowsC9w =
      Except.ok ⟨none, none, 0, 0, ∅⟩ :=
  ⟨by decide, by decide, claim_C9_amended _ _ _ (by decide) (by decide)⟩

/-- Claim C6, counterexample: when the external p-value combination
produces exactly zero, both combination sites return exactly zero —
`combine_cluster_evidence` at cluster level and
`compute_overall_significance` overall — so no clamping to a smallest
positive value happens, and neither source function has a warning path
(scipy's Stouffer/Fisher combination can underflow to an exact 0.0,
which this instantiation models). -/
theorem claim_C6_counterexample :
    (combine_cluster_evidence (fun _ _ => 0) clusterC6 rowsC6).map (fun e => e.combined_pvalue) =
      Except.ok (some 0) ∧
    (compute_overall_significance (fun _ => 0) (fun _ _ => 0) resultsC6).overall_pvalue =
      some 0 ∧
    (compute_overall_significance (fun _ => 0) (fun _ _ => 0) resultsC6).overall_pvalue_fisher =
      some 0 ∧
    (compute_overall_significance (fun _ => 0) (fun _ _ => 0) resultsC6).overall_pvalue_stouffer =
      some 0 :=
  ⟨rfl, rfl, rfl, rfl⟩

/-- Claim C6, amended: at both combination sites the combined p-value is
returned exactly as the external combination produced it — when every
combination outputs exactly `z` (in particular an exact zero), the
cluster-level record carries exactly `z`, and the overall record carries
exactly `z` in its `overall_pvalue`, Fisher and Stouffer fields — with
no numerical floor and no warning. -/
theorem claim_C6_amended (stouffer : List ℚ → List ℚ → ℚ) (fisher : List ℚ → ℚ)
    (stoufferW : List ℚ → Option (List ℚ) → ℚ) (z : ℚ)
    (cluster : List String) (rows : List ClusterRow) (results : List ClusterEvidence)
    (hz : ∀ ps ws, stouffer ps ws = z)
    (hzf : ∀ ps, fisher ps = z)
    (hzs : ∀ ps ws, stoufferW ps ws = z)
    (hnc : ¬ (clusterWeights cluster ≠ [] ∧ ((clusterWeights cluster).map Prod.snd).sum = 0))
    (hp : validPvalsOf cluster rows ≠ [])
    (hv : validClustersOf results ≠ []) :
    (combine_cluster_evidence stouffer cluster rows).map (fun e => e.combined_pvalue) =
      Except.ok (some z) ∧
    (compute_overall_significance fisher stoufferW results).overall_pvalue = some z ∧
    (compute_overall_significance fisher stoufferW results).overall_pvalue_fisher = some z ∧
    (compute_overall_significance fisher stoufferW results).overall_pvalue_stouffer = some z := by
  refine ⟨?_, ?_, ?_, ?_⟩
  · have hvr : (validRowsOf cluster rows).length > 0 := by
      rcases Nat.eq_zero_or_pos (validRowsOf cluster rows).length with h0 | h0
      · exfalso
        apply hp
        unfold validPvalsOf
        rw [List.length_eq_zero.mp h0]
        rfl
      · exact h0
    unfold combine_cluster_evidence
    rw [if_neg hnc, if_pos hvr, if_pos hp]
    simp [hz, Except.map]
  · unfold compute_overall_significance
    rw [if_pos hv]
    show some (fisher (clusterPvalsOf results)) = some z
    rw [hzf]
  · unfold compute_overall_significance
    rw [if_pos hv]
    show some (fisher (clusterPvalsOf results)) = some z
    rw [hzf]
  · unfold compute_overall_significance
    rw [if_pos hv]
    show some (stoufferW (clusterPvalsOf results) (overallWeightsOf results)) = some z
    rw [hzs]

/-- Claim C6, witness: the amended theorem instantiated with external
combinations that return exactly zero, on a concrete one-member cluster
and a concrete one-cluster overall input. -/
theorem claim_C6_witness :
    (¬ (clusterWeights clusterC6 ≠ [] ∧ ((clusterWeights clusterC6).map Prod.snd).sum = 0)) ∧
    validPvalsOf clusterC6 rowsC6 ≠ [] ∧
    validClustersOf resultsC6 ≠ [] ∧
    ((combine_cluster_evidence (fun _ _ => (0 : ℚ)) clusterC6 rowsC6).map
      (fun e => e.combined_pvalue) = Except.ok (some 0) ∧
     (compute_overall_significance (fun _ => (0 : ℚ)) (fun _ _ => (0 : ℚ))
       resultsC6).overall_pvalue = some 0 ∧
     (compute_overall_significance (fun _ => (0 : ℚ)) (fun _ _ => (0 : ℚ))
       resultsC6).overall_pvalue_fisher = some 0 ∧
     (compute_overall_significance (fun _ => (0 : ℚ)) (fun _ _ => (0 : ℚ))
       resultsC6).overall_pvalue_stouffer = some 0) :=
  ⟨by decide, by decide, by decide,
    claim_C6_amended (fun _ _ => 0) (fun _ => 0) (fun _ _ => 0) 0 clusterC6 rowsC6 resultsC6
      (fun _ _ => rfl) (fun _ => rfl) (fun _ _ => rfl) (by decide) (by decide) (by decide)⟩

/-- Claim C1: on every input list of distinct region names whose
parseable coordinates satisfy start ≤ end, `build_overlap_clusters`
outputs a partition of exactly the parseable regions into the connected
components of the same-chromosome interval-overlap relation: cluster ids
are distinct, every cluster is nonempty, a name belongs to some cluster
iff it is a parseable region, and two parseable regions lie in clusters
with the same id iff they are connected by a chain of same-chromosome
interval overlaps. -/
theorem claim_C1 (names : List String) (hnd : names.Nodup)
    (hval : ∀ rg ∈ names.filterMap parseRegion, rg.start ≤ rg.stop) :
    ((buildOverlapClustersFromNames names).map Prod.fst).Nodup ∧
    (∀ p ∈ buildOverlapClustersFromNames names, p.2.Nonempty) ∧
    (∀ x : String, (∃ p ∈ buildOverlapClustersFromNames names, x ∈ p.2) ↔
      x ∈ (names.filterMap parseRegion).map CdsCoord.cds) ∧
    (∀ p ∈ buildOverlapClustersFromNames names, ∀ q ∈ buildOverlapClustersFromNames names,
      ∀ a ∈ names.filterMap parseRegion, ∀ b ∈ names.filterMap parseRegion,
      a.cds ∈ p.2 → b.cds ∈ q.2 →
        (p.1 = q.1 ↔ ConnectedIn (names.filterMap parseRegion) a b)) := by
  have hnodupP : ((names.filterMap parseRegion).map CdsCoord.cds).Nodup :=
    List.Nodup.sublist (filterMap_parse_cds_sublist names) hnd
  have hinv := buildOverlapClusters_inv (names.filterMap parseRegion) hnodupP hval
  have hperm : List.Perm (sortCoords (names.filterMap parseRegion))
      (names.filterMap parseRegion) := List.perm_insertionSort keyLe _
  have hmem : ∀ a : CdsCoord, a ∈ sortCoords (names.filterMap parseRegion) ↔
      a ∈ names.filterMap parseRegion := fun a => hperm.mem_iff
  have hBD : buildOverlapClustersFromNames names =
      ((sortCoords (names.filterMap parseRegion)).foldl stepRegion ⟨[], 0, []⟩).clusters := rfl
  refine ⟨?_, ?_, ?_, ?_⟩
  · rw [hBD]
    exact hinv.keysNodup
  · rw [hBD]
    exact hinv.nonempty
  · intro x
    rw [hBD]
    have hcds : x ∈ (sortCoords (names.filterMap parseRegion)).map CdsCoord.cds ↔
        x ∈ (names.filterMap parseRegion).map CdsCoord.cds :=
      (hperm.map CdsCoord.cds).mem_iff
    rw [← hcds]
    exact hinv.cover x
  · intro p hp q hq a ha b hb hap hbq
    rw [hBD] at hp hq
    have hcomp := hinv.comp p hp q hq a ((hmem a).mpr ha) b ((hmem b).mpr hb) hap hbq
    rw [connectedIn_congr hmem] at hcomp
    exact hcomp

/-- Claim C1, witness: the specification's four-region example — four
distinct valid regions on one chromosome with intervals [100,200],
[150,300], [500,600], [550,650] produce exactly the two clusters
{[100,200],[150,300]} and {[500,600],[550,650]}, and the partition and
connected-component properties hold there. -/
theorem claim_C1_witness :
    namesC1.Nodup ∧
    (∀ rg ∈ namesC1.filterMap parseRegion, rg.start ≤ rg.stop) ∧
    buildOverlapClustersFromNames namesC1 =
      [(1, {"chr1_start500_end600", "chr1_start550_end650"}),
       (0, {"chr1_start100_end200", "chr1_start150_end300"})] ∧
    (∀ x : String, (∃ p ∈ buildOverlapClustersFromNames namesC1, x ∈ p.2) ↔
      x ∈ (namesC1.filterMap parseRegion).map CdsCoord.cds) ∧
    (∀ p ∈ buildOverlapClustersFromNames namesC1, ∀ q ∈ buildOverlapClustersFromNames namesC1,
      ∀ a ∈ namesC1.filterMap parseRegion, ∀ b ∈ namesC1.filterMap parseRegion,
      a.cds ∈ p.2 → b.cds ∈ q.2 →
        (p.1 = q.1 ↔ ConnectedIn (namesC1.filterMap parseRegion) a b)) :=
  ⟨by decide, by decide, by decide,
    (claim_C1 namesC1 (by decide) (by decide)).2.2.1,
    (claim_C1 namesC1 (by decide) (by decide)).2.2.2⟩

end Ferromic
